import Mathlib

/-!
# CAN frame packer (`can/packer.cc`)

A shallow embedding of `set_value`, `CANPacker::pack` and
`CANPacker::lookup_message`, followed by the properties of the packer.

Conventions of the embedding.

* A frame (`std::vector<uint8_t>`) is a `List Nat`; every store into it is
  reduced `% 256`.  `IsBytes` says that every entry is below 256.
* `int64_t` is `Int`, converted to `uint64_t` by `toU64` (`% 2^64`) and back by
  `toI64`; `>>` on `int64_t` is the arithmetic shift `Int.shiftRight`.
* `Signal.lsb` and `Signal.size` are C `int`s; they are natural numbers here,
  negative bit offsets and widths are outside the model.
* A finite `double` is the rational number it denotes (`ℚ`); the values, factors and
  offsets given to the packer are finite.  The subtraction and the division of `pack` are
  IEEE 754 binary64 operations: the exact result rounded to the nearest double, ties to
  even (`toDbl`), an overflow or a division by zero giving a value that is not finite
  (`Dbl.nonfinite`).  The sign of a zero is not recorded; nothing in `pack` observes it.
* Where C++ leaves a result undefined the embedding follows the x86-64 instructions:
  the conversion of a double that is not finite or is out of range to `int64_t` gives
  `INT64_MIN` (`castI64`), and `1ULL << n` shifts by `n % 64` (`shl64`).  The theorems on
  the value written by `pack` exclude the inputs that reach either; the counterexamples
  that rest on them say so.  The conversion to `uint32_t` of `counters[address] = v` wraps
  `% 2^32` (`toU32`).
* `std::map` is an association list read by `mapFind` and written by `mapSet`.
-/

namespace CanPacker

/-! ## Data model (`opendbc/can/common.h`) -/

/-- Modelled from the spec: the `Signal` record of `common.h`, which is not part of the
sources at hand.  `calc_checksum` is the function pointer: `none` is `nullptr`,
`some f` is the address of a checksum routine, run by the `call` parameter of `pack`. -/
structure Signal where
  name : String
  lsb : Nat
  size : Nat
  is_little_endian : Bool
  factor : ℚ
  offset : ℚ
  calc_checksum : Option Nat
deriving DecidableEq

/-- Modelled from the spec: the `Msg` record of `common.h` (address, frame length in
bytes, signals in declaration order). -/
structure Msg where
  name : String
  address : Nat
  size : Nat
  sigs : List Signal
deriving DecidableEq

/-- Value-initialised `Msg`, what `std::map::operator[]` inserts for a missing key. -/
def Msg.empty : Msg := ⟨"", 0, 0, []⟩

/-! ## Machine integers -/

/-- Conversion `int64_t → uint64_t`. -/
def toU64 (v : Int) : Nat := (v % 2 ^ 64).toNat

/-- Conversion to `int64_t` (two's complement wrap). -/
def toI64 (v : Int) : Int := (v + 2 ^ 63) % 2 ^ 64 - 2 ^ 63

/-- Bit `k` of a two's complement integer. -/
def ibit (v : Int) (k : Nat) : Bool := decide ((v >>> k) % 2 = 1)

/-! ## `set_value` -/

/-- The two read-modify-write statements of the loop body on the byte `b = msg[i]`:
`msg[i] &= ~(((1ULL << size) - 1) << shift);`
`msg[i] |= (ival & ((1ULL << size) - 1)) << shift;` -/
def write_chunk (b : Nat) (ival : Int) (size shift : Nat) : Nat :=
  let m := (1 <<< size) % 2 ^ 64 - 1
  let b1 := (b &&& (2 ^ 64 - 1 - (m <<< shift) % 2 ^ 64)) % 256
  (b1 ||| ((toU64 ival &&& m) <<< shift) % 2 ^ 64) % 256

/-- The `while` loop of `set_value`; the state is `(msg, i, bits, ival)`.  Every
iteration consumes at least one bit, so `bits` iterations of fuel are enough
(`set_value_loop_fuel`, `set_value_loop_fuel_add`). -/
def set_value_loop (sig : Signal) : Nat → List Nat → Int → Nat → Int → List Nat
  | 0, msg, _, _, _ => msg
  | fuel + 1, msg, i, bits, ival =>
    if 0 ≤ i ∧ i < (msg.length : Int) ∧ 0 < bits then
      let shift := if ((sig.lsb / 8 : Nat) : Int) = i then sig.lsb % 8 else 0
      let size := min bits (8 - shift)
      let msg1 := msg.set i.toNat (write_chunk (msg.getD i.toNat 0) ival size shift)
      set_value_loop sig fuel msg1 (if sig.is_little_endian then i + 1 else i - 1)
        (bits - size) (ival >>> size)
    else msg

/-- `void set_value(std::vector<uint8_t> &msg, const Signal &sig, int64_t ival)`;
the mutated vector is returned. -/
def set_value (msg : List Nat) (sig : Signal) (ival : Int) : List Nat :=
  let i : Int := ((sig.lsb / 8 : Nat) : Int)
  let bits := sig.size
  let ival := if sig.size < 64
    then toI64 ((toU64 ival &&& ((1 <<< sig.size) % 2 ^ 64 - 1) : Nat) : Int)
    else ival
  set_value_loop sig bits msg i bits ival

/-- The value the loop of `set_value` starts from: `ival` masked to `size` bits when
`size < 64`, `ival` itself otherwise (first statement of `set_value`). -/
def masked (sig : Signal) (ival : Int) : Int :=
  if sig.size < 64 then toI64 ((toU64 ival &&& ((1 <<< sig.size) % 2 ^ 64 - 1) : Nat) : Int)
    else ival

/-! ## Bit positions of a signal -/

/-- Every entry of the frame is a byte. -/
def IsBytes (msg : List Nat) : Prop := ∀ x ∈ msg, x < 256

/-- Bit `c` of byte `j` of a frame; `false` outside the frame. -/
def getBit (msg : List Nat) (j : Int) (c : Nat) : Bool :=
  if 0 ≤ j ∧ j < (msg.length : Int) then (msg.getD j.toNat 0).testBit c else false

/-- Position (byte index, bit in byte) of the `k`-th bit of a signal: counted from bit
`lsb % 8` of byte `lsb / 8` upward inside a byte, then byte by byte in the
signal's direction. -/
def sigPos (sig : Signal) (k : Nat) : Int × Nat :=
  let d : Int := (((sig.lsb % 8 + k) / 8 : Nat) : Int)
  (if sig.is_little_endian then ((sig.lsb / 8 : Nat) : Int) + d else ((sig.lsb / 8 : Nat) : Int) - d,
   (sig.lsb % 8 + k) % 8)

/-- The bit positions of a signal, in the order of its bits. -/
def sigBits (sig : Signal) : List (Int × Nat) := (List.range sig.size).map (sigPos sig)

/-- All bit positions of the signal are inside a frame of `n` bytes. -/
def insideFrame (sig : Signal) (n : Nat) : Bool :=
  (sigBits sig).all (fun p => decide (0 ≤ p.1) && decide (p.1 < (n : Int)))

/-- No bit position belongs to both signals. -/
def disjointSigs (a b : Signal) : Bool :=
  (sigBits a).all (fun p => !(sigBits b).contains p)

/-- The unsigned integer stored in the signal's field: bit `k` is the bit of the frame at
`sigPos sig k`. -/
def read_field (msg : List Nat) (sig : Signal) : Nat :=
  ((List.range sig.size).map (fun k =>
    if getBit msg (sigPos sig k).1 (sigPos sig k).2 then 2 ^ k else 0)).sum

/-- Signed distance, in the signal's direction, from byte `i` to byte `j`. -/
def off (sig : Signal) (i j : Int) : Int := if sig.is_little_endian then j - i else i - j

/-- The frame bit `(j, c)` is written by `set_value` on a frame of `n` bytes: the first byte
of the signal is inside the frame, and so is `j`, which lies `d ≥ 0` bytes further in the
signal's direction, with `8 * d + c` among the `size` bits counted from `lsb % 8`. -/
def written (sig : Signal) (n : Nat) (j c : Nat) : Prop :=
  sig.lsb / 8 < n ∧ j < n ∧ 0 ≤ off sig ((sig.lsb / 8 : Nat) : Int) j ∧
    ((sig.lsb % 8 : Nat) : Int) ≤ 8 * off sig ((sig.lsb / 8 : Nat) : Int) j + c ∧
    8 * off sig ((sig.lsb / 8 : Nat) : Int) j + c - ((sig.lsb % 8 : Nat) : Int) < sig.size

instance (sig : Signal) (n j c : Nat) : Decidable (written sig n j c) := by
  unfold written; infer_instance

/-- Index of the signal bit stored at frame bit `(j, c)`. -/
def bitIndex (sig : Signal) (j c : Nat) : Nat :=
  (8 * off sig ((sig.lsb / 8 : Nat) : Int) j + c - ((sig.lsb % 8 : Nat) : Int)).toNat

/-! ## `std::map` -/

/-- `std::map::find`: the value bound to a key, if any. -/
def mapFind {β : Type} : List (Nat × β) → Nat → Option β
  | [], _ => none
  | (k', v') :: m, k => if k' = k then some v' else mapFind m k

/-- `m[k] = v`: rebinds an existing key, inserts a missing one. -/
def mapSet {β : Type} : List (Nat × β) → Nat → β → List (Nat × β)
  | [], k, v => [(k, v)]
  | (k', v') :: m, k, v => if k' = k then (k, v) :: m else (k', v') :: mapSet m k v

/-- `values.find(name)` on the `std::map<std::string, double>` argument of `pack`. -/
def valFind : List (String × ℚ) → String → Option ℚ
  | [], _ => none
  | (k', v') :: m, k => if k' = k then some v' else valFind m k

/-! ## `CANPacker` -/

/-- Modelled from the spec: the state of a `CANPacker` (class declared in `common.h`): the message
table `message_lookup` and the per-address counters `counters`, unsigned 32-bit values. -/
structure CANPacker where
  message_lookup : List (Nat × Msg)
  counters : List (Nat × Nat)
deriving DecidableEq

/-- Constructor `CANPacker::CANPacker`, from the messages of the DBC found by the external
`dbc_lookup`: `message_lookup[msg.address] = msg` for each of them, no counters. -/
def CANPacker.new (msgs : List Msg) : CANPacker :=
  { message_lookup := msgs.foldl (fun m msg => mapSet m msg.address msg) [],
    counters := [] }

/-- Failure of a call: `std::out_of_range`, thrown by `std::map::at` for a missing key
(the `UnknownMessage` condition). -/
inductive PackError where
  | out_of_range
deriving DecidableEq

/-- `round` of `<cmath>`: nearest integer, halfway cases away from zero. -/
def cround (x : ℚ) : Int := if 0 ≤ x then ⌊x + 1 / 2⌋ else -⌊-x + 1 / 2⌋

/-- Conversion `double → uint32_t` of `counters[address] = v`: truncation toward zero. -/
def toU32 (v : ℚ) : Nat := ((if 0 ≤ v then ⌊v⌋ else -⌊-v⌋) % 2 ^ 32).toNat

/-- A value of type `double`: a finite one, given by the rational number it denotes, or one
that is not finite (an infinity or a NaN; `pack` only converts such a value to `int64_t`,
with the same result for all of them). -/
inductive Dbl where
  | fin (q : ℚ)
  | nonfinite
deriving DecidableEq

/-- The power `2^u` of an integer exponent, as a rational number. -/
def pow2 (u : Int) : ℚ :=
  if 0 ≤ u then ((1 <<< u.toNat : Nat) : ℚ) else 1 / ((1 <<< (-u).toNat : Nat) : ℚ)

/-- Number of binary digits of `n` (0 for 0); `fuel ≥ n` is enough. -/
def bitLen : Nat → Nat → Nat
  | 0, _ => 0
  | fuel + 1, n => if n = 0 then 0 else bitLen fuel (n / 2) + 1

/-- Binary exponent of a positive rational: the `e` with `2^e ≤ a < 2^(e+1)`. -/
def ilog2 (a : ℚ) : Int :=
  let e0 : Int := (bitLen a.num.natAbs a.num.natAbs : Int) - (bitLen a.den a.den : Int)
  if pow2 e0 ≤ a then e0 else e0 - 1

/-- Nearest natural number of a non-negative rational, halfway cases to the even one. -/
def roundEven (m : ℚ) : Nat :=
  let f := ⌊m⌋.toNat
  if m - f < 1 / 2 then f else if 1 / 2 < m - f then f + 1 else if f % 2 = 0 then f else f + 1

/-- Rounding of an exact result to `double` (IEEE 754 binary64, round to nearest, ties to
even): 53 significant bits, the spacing never below `2^-1074` (subnormal numbers), and a
rounded magnitude of `2^1024` or more overflows to an infinity. -/
def toDbl (q : ℚ) : Dbl :=
  if q = 0 then Dbl.fin 0 else
    let a := |q|
    let u : Int := max (ilog2 a - 52) (-1074)
    let r := (roundEven (a / pow2 u) : ℚ) * pow2 u
    if pow2 1024 ≤ r then Dbl.nonfinite else Dbl.fin (if q < 0 then -r else r)

/-- Subtraction `a - b` of two finite doubles. -/
def fsub (a b : ℚ) : Dbl := toDbl (a - b)

/-- Division `x / b` of a double by a finite double; a division by zero gives an infinity
or a NaN. -/
def fdiv (x : Dbl) (b : ℚ) : Dbl :=
  match x with
  | Dbl.fin a => if b = 0 then Dbl.nonfinite else toDbl (a / b)
  | Dbl.nonfinite => Dbl.nonfinite

/-- `round` of `<cmath>` on a `double`; the result is exact. -/
def fround (x : Dbl) : Dbl :=
  match x with
  | Dbl.fin q => Dbl.fin (cround q)
  | Dbl.nonfinite => Dbl.nonfinite

/-- Conversion `(int64_t)x` of a `double`: truncation toward zero; for a value that is not
finite or whose truncation is not an `int64_t`, where C++ leaves the result undefined, the
result of the x86-64 conversion instruction, `INT64_MIN`. -/
def castI64 (x : Dbl) : Int :=
  match x with
  | Dbl.fin q =>
    let t : Int := if 0 ≤ q then ⌊q⌋ else -⌊-q⌋
    if -(2 ^ 63) ≤ t ∧ t < 2 ^ 63 then t else -(2 ^ 63)
  | Dbl.nonfinite => -(2 ^ 63)

/-- `1ULL << n`; for `n ≥ 64`, where C++ leaves the result undefined, the x86-64 shift,
which uses the count modulo 64. -/
def shl64 (n : Nat) : Nat := 1 <<< (n % 64)

/-- The double `(v - sig.offset) / sig.factor` computed by `pack`. -/
def rawQuot (sig : Signal) (v : ℚ) : Dbl := fdiv (fsub v sig.offset) sig.factor

/-- The raw integer written for a signal given the physical value `v`:
`int64_t ival = (int64_t)(round((v - sig.offset) / sig.factor));`
`if (ival < 0) ival = (1ULL << sig.size) + ival;` -/
def pack_ival (sig : Signal) (v : ℚ) : Int :=
  let ival := castI64 (fround (rawQuot sig v))
  if ival < 0 then toI64 (((shl64 sig.size + toU64 ival) % 2 ^ 64 : Nat) : Int) else ival

/-- Local variables of `pack` together with the counters it may update. -/
structure PackState where
  ret : List Nat
  counter_set : Bool
  counter_sig : Option Signal
  checksum_sig : Option Signal
  counters : List (Nat × Nat)

/-- Body of the loop `for (const auto &sig : msg.sigs)` of `pack`. -/
def pack_signal (address : Nat) (values : List (String × ℚ)) (st : PackState) (sig : Signal) :
    PackState :=
  let value_it := valFind values sig.name
  let v : ℚ := value_it.getD 0
  let ival := pack_ival sig v
  let ret := if ival ≠ 0 then set_value st.ret sig ival else st.ret
  if sig.name = "CHECKSUM" then
    { st with ret := ret, checksum_sig := some sig }
  else if sig.name = "COUNTER" ∧ value_it.isSome then
    { st with ret := ret, counter_sig := some sig, counter_set := true,
              counters := mapSet st.counters address (toU32 v) }
  else
    { st with ret := ret }

/-- The signal loop of `pack`, from the zero-filled frame. -/
def pack_signals (p : CANPacker) (msg : Msg) (address : Nat) (values : List (String × ℚ)) :
    PackState :=
  msg.sigs.foldl (pack_signal address values)
    { ret := List.replicate msg.size 0, counter_set := false, counter_sig := none,
      checksum_sig := none, counters := p.counters }

/-- The block `// set message counter` of `pack`; `counters[address]` reads 0 for a missing
key, `1 << size` is taken modulo `2^32`. -/
def pack_counter (address : Nat) (st : PackState) : PackState :=
  match st.counter_sig with
  | some counter_sig =>
    if !st.counter_set then
      let cnt := (mapFind st.counters address).getD 0
      { st with ret := set_value st.ret counter_sig (cnt : Int),
                counters := mapSet st.counters address
                  ((cnt + 1) % 2 ^ 32 % ((1 <<< counter_sig.size) % 2 ^ 32)) }
    else st
  | none => st

/-- The block `// set message checksum` of `pack`; `call f address sig frame` runs the routine
behind the function pointer `f`, its result is an `unsigned int`. -/
def pack_checksum (call : Nat → Nat → Signal → List Nat → Nat) (address : Nat)
    (st : PackState) : List Nat :=
  match st.checksum_sig with
  | some checksum_sig =>
    match checksum_sig.calc_checksum with
    | some f => set_value st.ret checksum_sig ((call f address checksum_sig st.ret % 2 ^ 32 : Nat) : Int)
    | none => st.ret
  | none => st.ret

/-- `std::vector<uint8_t> CANPacker::pack(uint32_t address, const std::map<std::string, double> &values)`:
the result (the frame or the exception of `message_lookup.at`) and the packer afterwards. -/
def pack (call : Nat → Nat → Signal → List Nat → Nat) (p : CANPacker) (address : Nat)
    (values : List (String × ℚ)) : Except PackError (List Nat) × CANPacker :=
  match mapFind p.message_lookup address with
  | none => (Except.error PackError.out_of_range, p)
  | some msg =>
    let st := pack_counter address (pack_signals p msg address values)
    (Except.ok (pack_checksum call address st), { p with counters := st.counters })

/-- `Msg* CANPacker::lookup_message(uint32_t address)`, `return &message_lookup[address];`:
the record pointed to and the packer afterwards (`operator[]` inserts a value-initialised
record for a missing key). -/
def lookup_message (p : CANPacker) (address : Nat) : Except PackError Msg × CANPacker :=
  match mapFind p.message_lookup address with
  | some msg => (Except.ok msg, p)
  | none => (Except.ok Msg.empty,
      { p with message_lookup := mapSet p.message_lookup address Msg.empty })

/-- Physical value `v` used for a signal: the supplied one, `0.0` when the name is absent
from `values`. -/
def physValue (values : List (String × ℚ)) (sig : Signal) : ℚ := (valFind values sig.name).getD 0

/-- The integer nearest to the exact quotient `(v - offset) / factor`, halfway cases away
from zero. -/
def rawRound (sig : Signal) (v : ℚ) : Int := cround ((v - sig.offset) / sig.factor)

/-! ## Example inputs -/

/-- Example signal of the concrete scenario: `SPEED`, bits 0..7, factor 0.5. -/
def exSpeed : Signal := ⟨"SPEED", 0, 8, true, 1 / 2, 0, none⟩

/-- Example message of the concrete scenario: address `0x200`, one byte, `SPEED`. -/
def exSpeedMsg : Msg := ⟨"SPEED_MSG", 0x200, 1, [exSpeed]⟩

/-- Example counter signal: 8 bits in byte 0, factor 1, offset 0. -/
def exCounter : Signal := ⟨"COUNTER", 0, 8, true, 1, 0, none⟩

/-- Example message with a counter: address `0x100`, one byte. -/
def exCounterMsg : Msg := ⟨"COUNTER_MSG", 0x100, 1, [exCounter]⟩

/-- Example checksum signal: 8 bits in byte 1, checksum routine number 0. -/
def exChecksum : Signal := ⟨"CHECKSUM", 8, 8, true, 1, 0, some 0⟩

/-- Example message with a payload byte and a checksum byte: address `0x300`. -/
def exChecksumMsg : Msg := ⟨"CHECKSUM_MSG", 0x300, 2, [exSpeed, exChecksum]⟩

/-- Example checksum routine: address plus the sum of the frame bytes. -/
def exCall : Nat → Nat → Signal → List Nat → Nat := fun _ address _ frame => address + frame.sum

/-- Example packer, freshly constructed from the three example messages. -/
def exPacker : CANPacker := CANPacker.new [exSpeedMsg, exCounterMsg, exChecksumMsg]

/-- Example signal: 64 bits, little-endian, filling an 8-byte frame. -/
def exWide : Signal := ⟨"W", 0, 64, true, 1, 0, none⟩

/-- Example message: address `0x700`, eight bytes, the 64-bit signal `W`. -/
def exWideMsg : Msg := ⟨"WIDE_MSG", 0x700, 8, [exWide]⟩

/-- The double nearest to one tenth, `0.1` in C++. -/
def tenth : ℚ := 3602879701896397 / 36028797018963968

/-- Example signal with the factor `0.1`: 8 bits in byte 0, offset 0. -/
def exTenth : Signal := ⟨"TENTH", 0, 8, true, tenth, 0, none⟩

/-- Example message: address `0x600`, one byte, `TENTH`. -/
def exTenthMsg : Msg := ⟨"TENTH_MSG", 0x600, 1, [exTenth]⟩

/-- Example signal: 16 bits, little-endian, factor 1, offset 0. -/
def exWord : Signal := ⟨"WORD", 0, 16, true, 1, 0, none⟩

/-- Example message: address `0x800`, two bytes, `WORD`. -/
def exWordMsg : Msg := ⟨"WORD_MSG", 0x800, 2, [exWord]⟩

/-- Example packer for the raw conversion, freshly constructed. -/
def exRawPacker : CANPacker := CANPacker.new [exTenthMsg, exWideMsg, exWordMsg]

/-- Example signal: 8 bits in byte 1, factor 0.5, no checksum routine. -/
def exHigh : Signal := ⟨"HIGH", 8, 8, true, 1 / 2, 0, none⟩

/-- Example message: address `0x900`, two bytes; `SPEED` and `TENTH` share byte 0, `HIGH`
has byte 1 to itself. -/
def exOverlapMsg : Msg := ⟨"OVERLAP_MSG", 0x900, 2, [exSpeed, exTenth, exHigh]⟩

/-- Example signal: 12 bits, little-endian, from bit 4 of byte 0 to bit 7 of byte 1. -/
def exMid : Signal := ⟨"MID", 4, 12, true, 1, 0, none⟩

/-- States reachable from a freshly constructed packer by `pack` and `lookup_message` calls,
the `pack` calls being restricted to those allowed by `ok`. -/
inductive ReachableBy (call : Nat → Nat → Signal → List Nat → Nat) (msgs : List Msg)
    (ok : CANPacker → Nat → List (String × ℚ) → Prop) : CANPacker → Prop where
  | init : ReachableBy call msgs ok (CANPacker.new msgs)
  | pack (p : CANPacker) (address : Nat) (values : List (String × ℚ)) :
      ReachableBy call msgs ok p → ok p address values →
      ReachableBy call msgs ok (pack call p address values).2
  | lookup (p : CANPacker) (address : Nat) :
      ReachableBy call msgs ok p → ReachableBy call msgs ok (lookup_message p address).2

/-- The supplied `COUNTER` value, if any, fits every `COUNTER` signal of the message at
`address` once converted to `uint32_t`. -/
def counterFits (p : CANPacker) (address : Nat) (values : List (String × ℚ)) : Prop :=
  ∀ msg s v, mapFind p.message_lookup address = some msg → s ∈ msg.sigs → s.name = "COUNTER" →
    valFind values "COUNTER" = some v → toU32 v < 2 ^ s.size

/-- The stored counter of every address lies in the range of the `COUNTER` signals of its
message. -/
def counterInRange (p : CANPacker) : Prop :=
  ∀ address msg s c, mapFind p.message_lookup address = some msg → s ∈ msg.sigs →
    s.name = "COUNTER" → mapFind p.counters address = some c → c < 2 ^ s.size

/-- Variant of `pack_signal` that always writes: `set_value` is called for every signal, also
when the raw integer is 0. -/
def pack_signal_always (address : Nat) (values : List (String × ℚ)) (st : PackState)
    (sig : Signal) : PackState :=
  let value_it := valFind values sig.name
  let v : ℚ := value_it.getD 0
  let ival := pack_ival sig v
  let ret := set_value st.ret sig ival
  if sig.name = "CHECKSUM" then
    { st with ret := ret, checksum_sig := some sig }
  else if sig.name = "COUNTER" ∧ value_it.isSome then
    { st with ret := ret, counter_sig := some sig, counter_set := true,
              counters := mapSet st.counters address (toU32 v) }
  else
    { st with ret := ret }

/-- Variant of `pack` that always writes: `pack` with `pack_signal_always` in the signal
loop. -/
def pack_always (call : Nat → Nat → Signal → List Nat → Nat) (p : CANPacker) (address : Nat)
    (values : List (String × ℚ)) : Except PackError (List Nat) × CANPacker :=
  match mapFind p.message_lookup address with
  | none => (Except.error PackError.out_of_range, p)
  | some msg =>
    let st := pack_counter address (msg.sigs.foldl (pack_signal_always address values)
      { ret := List.replicate msg.size 0, counter_set := false, counter_sig := none,
        checksum_sig := none, counters := p.counters })
    (Except.ok (pack_checksum call address st), { p with counters := st.counters })

/-- Example message with unowned bits: address `0x500`, three bytes, `MID` in bits 4..15. -/
def exMidMsg : Msg := ⟨"MID_MSG", 0x500, 3, [exMid]⟩

/-- The effect of one iteration of the signal loop of `pack` on the frame. -/
def retStep (values : List (String × ℚ)) (ret : List Nat) (sig : Signal) : List Nat :=
  if pack_ival sig ((valFind values sig.name).getD 0) ≠ 0
  then set_value ret sig (pack_ival sig ((valFind values sig.name).getD 0)) else ret

instance (msg : List Nat) : Decidable (IsBytes msg) := by
  unfold IsBytes; infer_instance

/-- Example signal: the low 4 bits of byte 0. -/
def exLow : Signal := ⟨"LOW", 0, 4, false, 1, 0, none⟩

/-- Example message: `exChecksumMsg` with its two signals declared in the other order. -/
def exSwappedMsg : Msg := ⟨"CHECKSUM_MSG", 0x300, 2, [exChecksum, exSpeed]⟩

/-- The loop of `set_value` instrumented with the byte indices `i` of its accesses to
`msg[i]`, in the order of the iterations; the first component is the result of
`set_value_loop`. -/
def set_value_loop_trace (sig : Signal) : Nat → List Nat → Int → Nat → Int → List Nat × List Int
  | 0, msg, _, _, _ => (msg, [])
  | fuel + 1, msg, i, bits, ival =>
    if 0 ≤ i ∧ i < (msg.length : Int) ∧ 0 < bits then
      let shift := if ((sig.lsb / 8 : Nat) : Int) = i then sig.lsb % 8 else 0
      let size := min bits (8 - shift)
      let msg1 := msg.set i.toNat (write_chunk (msg.getD i.toNat 0) ival size shift)
      let r := set_value_loop_trace sig fuel msg1 (if sig.is_little_endian then i + 1 else i - 1)
        (bits - size) (ival >>> size)
      (r.1, i :: r.2)
    else (msg, [])

/-- The byte indices accessed by `set_value msg sig ival`. -/
def set_value_trace (msg : List Nat) (sig : Signal) (ival : Int) : List Int :=
  (set_value_loop_trace sig sig.size msg ((sig.lsb / 8 : Nat) : Int) sig.size (masked sig ival)).2

/-- Byte index of the `d`-th chunk of a signal. -/
def chunkByte (sig : Signal) (d : Nat) : Int :=
  if sig.is_little_endian then ((sig.lsb / 8 : Nat) : Int) + d else ((sig.lsb / 8 : Nat) : Int) - d

/-- The chunk holding bit `k` of the signal and all chunks before it have their byte inside a
frame of `n` bytes: the loop reaches bit `k` before the first chunk outside the frame. -/
def chunksInside (sig : Signal) (n k : Nat) : Bool :=
  (List.range ((sig.lsb % 8 + k) / 8 + 1)).all
    (fun d => decide (0 ≤ chunkByte sig d) && decide (chunkByte sig d < (n : Int)))

/-- Byte `j` of a frame of `n` bytes is one of the bytes `set_value` stores into. -/
def touched (sig : Signal) (n : Nat) (j : Nat) : Prop :=
  sig.lsb / 8 < n ∧ j < n ∧ 0 ≤ off sig ((sig.lsb / 8 : Nat) : Int) j ∧ 0 < sig.size ∧
    8 * off sig ((sig.lsb / 8 : Nat) : Int) j < ((sig.lsb % 8 + sig.size : Nat) : Int)

instance (sig : Signal) (n j : Nat) : Decidable (touched sig n j) := by
  unfold touched; infer_instance

/-! ## Bits of machine integers -/

theorem ibit_natCast (n k : Nat) : ibit (n : Int) k = n.testBit k := by
  unfold ibit
  rw [Int.natCast_shiftRight, Nat.testBit_to_div_mod, Nat.shiftRight_eq_div_pow]
  have : ((n / 2 ^ k : Nat) : Int) % 2 = 1 ↔ n / 2 ^ k % 2 = 1 := by omega
  simp only [this]

theorem ibit_negSucc (n k : Nat) : ibit (Int.negSucc n) k = !n.testBit k := by
  unfold ibit
  rw [Int.negSucc_shiftRight, Nat.testBit_to_div_mod, Nat.shiftRight_eq_div_pow]
  have : Int.negSucc (n / 2 ^ k) % 2 = 1 ↔ ¬ (n / 2 ^ k % 2 = 1) := by
    rw [Int.negSucc_eq]; omega
  simp only [this, decide_not]

theorem ibit_shiftRight (v : Int) (s k : Nat) : ibit (v >>> s) k = ibit v (s + k) := by
  unfold ibit
  rw [Int.shiftRight_add]

theorem testBit_toU64 (v : Int) (c : Nat) : (toU64 v).testBit c = (decide (c < 64) && ibit v c) := by
  unfold toU64
  cases v with
  | ofNat n =>
    have h : ((Int.ofNat n) % 2 ^ 64).toNat = n % 2 ^ 64 := by
      simp only [Int.ofNat_eq_coe]; omega
    rw [h, Nat.testBit_mod_two_pow]
    simp only [Int.ofNat_eq_coe, ibit_natCast]
  | negSucc n =>
    have h : ((Int.negSucc n) % 2 ^ 64).toNat = 2 ^ 64 - (n % 2 ^ 64 + 1) := by
      rw [Int.negSucc_eq]; omega
    rw [h, Nat.testBit_two_pow_sub_succ (Nat.mod_lt _ (by norm_num)), Nat.testBit_mod_two_pow, ibit_negSucc]
    cases decide (c < 64) <;> simp

theorem chunk_mask (size : Nat) (h : size ≤ 8) : (1 <<< size) % 2 ^ 64 - 1 = 2 ^ size - 1 := by
  rw [Nat.one_shiftLeft, Nat.mod_eq_of_lt]
  exact Nat.pow_lt_pow_right (by norm_num) (by omega)

theorem write_chunk_testBit (b : Nat) (v : Int) (size shift c : Nat) (h : shift + size ≤ 8)
    (hc : c < 8) :
    (write_chunk b v size shift).testBit c =
      if shift ≤ c ∧ c < shift + size then ibit v (c - shift) else b.testBit c := by
  unfold write_chunk
  simp only []
  rw [chunk_mask size (by omega)]
  have e256 : (256 : Nat) = 2 ^ 8 := by norm_num
  have hlt : ((2 ^ size - 1) <<< shift) % 2 ^ 64 < 2 ^ 64 := Nat.mod_lt _ (by norm_num)
  rw [e256, Nat.testBit_mod_two_pow, Nat.testBit_or, Nat.testBit_mod_two_pow, Nat.testBit_mod_two_pow,
    Nat.testBit_and, Nat.sub_sub, Nat.add_comm 1, Nat.testBit_two_pow_sub_succ hlt,
    Nat.testBit_mod_two_pow, Nat.testBit_shiftLeft, Nat.testBit_shiftLeft, Nat.testBit_and,
    Nat.testBit_two_pow_sub_one, testBit_toU64]
  have h64 : c < 64 := by omega
  have h64' : c - shift < 64 := by omega
  by_cases hp : shift ≤ c ∧ c < shift + size
  · have h2 : c - shift < size := by omega
    rw [if_pos hp]
    simp [hc, h64, h64', hp.1, h2]
  · rw [if_neg hp]
    by_cases h1 : shift ≤ c
    · have h2 : ¬ c - shift < size := by omega
      simp [hc, h64, h1, h2]
    · simp [hc, h64, h1]

theorem write_chunk_lt (b : Nat) (v : Int) (size shift : Nat) : write_chunk b v size shift < 256 := by
  unfold write_chunk
  exact Nat.mod_lt _ (by norm_num)

theorem masked_eq (sig : Signal) (ival : Int) (h : sig.size < 64) :
    masked sig ival = ((toU64 ival % 2 ^ sig.size : Nat) : Int) := by
  unfold masked
  rw [if_pos h, Nat.one_shiftLeft,
    Nat.mod_eq_of_lt (Nat.pow_lt_pow_right (by norm_num) h), Nat.and_pow_two_sub_one_eq_mod]
  have h1 : toU64 ival % 2 ^ sig.size < 2 ^ sig.size := Nat.mod_lt _ (Nat.two_pow_pos _)
  have h2 : 2 ^ sig.size ≤ 2 ^ 63 := Nat.pow_le_pow_right (by norm_num) (by omega)
  unfold toI64
  omega

theorem ibit_masked (sig : Signal) (ival : Int) (k : Nat) (hk : k < sig.size) :
    ibit (masked sig ival) k = ibit ival k := by
  by_cases h : sig.size < 64
  · rw [masked_eq sig ival h, ibit_natCast, Nat.testBit_mod_two_pow, testBit_toU64]
    simp [hk, show k < 64 by omega]
  · unfold masked; rw [if_neg h]

theorem getD_set_eq (l : List Nat) (i j : Nat) (a : Nat) :
    (l.set i a).getD j 0 = if i = j ∧ i < l.length then a else l.getD j 0 := by
  simp only [List.getD_eq_getElem?_getD, List.getElem?_set]
  by_cases h : i = j
  · subst h
    by_cases h2 : i < l.length
    · simp [h2]
    · simp [h2, List.getElem?_eq_none (Nat.le_of_not_lt h2)]
  · simp [h]

theorem set_value_loop_length (sig : Signal) :
    ∀ (fuel : Nat) (msg : List Nat) (i : Int) (bits : Nat) (ival : Int),
      (set_value_loop sig fuel msg i bits ival).length = msg.length := by
  intro fuel
  induction fuel with
  | zero => intro msg i bits ival; rfl
  | succ n ih =>
    intro msg i bits ival
    unfold set_value_loop
    split
    · simp only []
      rw [ih, List.length_set]
    · rfl

theorem set_value_loop_tail (sig : Signal) :
    ∀ (fuel : Nat) (msg : List Nat) (i : Int) (bits : Nat) (ival : Int),
      bits ≤ fuel → ((sig.lsb / 8 : Nat) : Int) ≠ i → 0 < off sig ((sig.lsb / 8 : Nat) : Int) i →
      ∀ (j c : Nat), c < 8 →
        ((set_value_loop sig fuel msg i bits ival).getD j 0).testBit c =
          if 0 ≤ i ∧ i < (msg.length : Int) ∧ j < msg.length ∧ 0 ≤ off sig i j ∧
             8 * off sig i j + c < bits
          then ibit ival (8 * off sig i j + c).toNat else (msg.getD j 0).testBit c := by
  intro fuel
  induction fuel with
  | zero =>
    intro msg i bits ival hb hne hoff j c hc
    have : ¬ (0 ≤ i ∧ i < (msg.length : Int) ∧ j < msg.length ∧ 0 ≤ off sig i j ∧
             8 * off sig i j + c < bits) := by omega
    rw [if_neg this]; rfl
  | succ n ih =>
    intro msg i bits ival hb hne hoff j c hc
    unfold set_value_loop
    by_cases hg : 0 ≤ i ∧ i < (msg.length : Int) ∧ 0 < bits
    · rw [if_pos hg]
      simp only [if_neg hne, Nat.sub_zero]
      have hsz : min bits 8 ≤ bits ∧ min bits 8 ≤ 8 ∧ (min bits 8 = bits ∨ min bits 8 = 8) := by
        rw [Nat.min_def]; split <;> omega
      generalize min bits 8 = sz at hsz ⊢
      have hoff' : 0 < off sig ((sig.lsb / 8 : Nat) : Int) (if sig.is_little_endian then i + 1 else i - 1) := by
        unfold off at hoff ⊢
        split <;> simp_all <;> omega
      have hne' : ((sig.lsb / 8 : Nat) : Int) ≠ (if sig.is_little_endian then i + 1 else i - 1) := by
        unfold off at hoff
        split <;> simp_all <;> omega
      rw [ih _ _ _ _ (by omega) hne' hoff' j c hc, List.length_set, getD_set_eq]
      have hstep : off sig (if sig.is_little_endian then i + 1 else i - 1) (j : Int) = off sig i j - 1 := by
        unfold off
        split <;> simp_all <;> omega
      have hj0 : off sig i j = 0 ↔ i.toNat = j := by
        unfold off
        split <;> omega
      have hin : 0 ≤ off sig i j → (j < msg.length) → 0 < off sig i j →
          (0 ≤ (if sig.is_little_endian then i + 1 else i - 1) ∧
           (if sig.is_little_endian then i + 1 else i - 1) < (msg.length : Int)) := by
        unfold off
        split <;> omega
      rw [hstep]
      generalize (if sig.is_little_endian then i + 1 else i - 1) = i' at hin ⊢
      generalize off sig i j = d at hj0 hin ⊢
      by_cases hji : i.toNat = j
      · have h0 : d = 0 := hj0.2 hji
        have hjl : j < msg.length := by omega
        subst h0
        have e1 : ¬ (0 ≤ i' ∧ i' < (msg.length : Int) ∧ j < msg.length ∧ (0 : Int) ≤ 0 - 1 ∧
            8 * (0 - 1) + (c : Int) < ((bits - sz : Nat) : Int)) := by omega
        have e2 : i.toNat = j ∧ i.toNat < msg.length := ⟨hji, by omega⟩
        rw [if_neg e1, if_pos e2, write_chunk_testBit _ _ _ _ _ (by omega) hc]
        by_cases hcb : c < bits
        · have e3 : 0 ≤ c ∧ c < 0 + sz := by omega
          have e4 : 0 ≤ i ∧ i < (msg.length : Int) ∧ j < msg.length ∧ (0 : Int) ≤ 0 ∧
              8 * 0 + (c : Int) < (bits : Int) := by omega
          rw [if_pos e3, if_pos e4]
          simp
        · have e3 : ¬ (0 ≤ c ∧ c < 0 + sz) := by omega
          have e4 : ¬ (0 ≤ i ∧ i < (msg.length : Int) ∧ j < msg.length ∧ (0 : Int) ≤ 0 ∧
              8 * 0 + (c : Int) < (bits : Int)) := by omega
          rw [if_neg e3, if_neg e4, hji]
      · have h0 : d ≠ 0 := fun h => hji (hj0.1 h)
        have e2 : ¬ (i.toNat = j ∧ i.toNat < msg.length) := by omega
        rw [if_neg e2]
        by_cases hc2 : 0 ≤ i ∧ i < (msg.length : Int) ∧ j < msg.length ∧ 0 ≤ d ∧
             8 * d + c < bits
        · have hi' := hin hc2.2.2.2.1 hc2.2.2.1 (by omega)
          have e1 : 0 ≤ i' ∧ i' < (msg.length : Int) ∧ j < msg.length ∧ 0 ≤ d - 1 ∧
            8 * (d - 1) + (c : Int) < ((bits - sz : Nat) : Int) := by omega
          rw [if_pos hc2, if_pos e1, ibit_shiftRight]
          congr 1
          omega
        · have e1 : ¬ (0 ≤ i' ∧ i' < (msg.length : Int) ∧ j < msg.length ∧ 0 ≤ d - 1 ∧
            8 * (d - 1) + (c : Int) < ((bits - sz : Nat) : Int)) := by omega
          rw [if_neg hc2, if_neg e1]
    · rw [if_neg hg, if_neg (by omega)]

theorem set_value_eq (msg : List Nat) (sig : Signal) (ival : Int) :
    set_value msg sig ival =
      set_value_loop sig sig.size msg ((sig.lsb / 8 : Nat) : Int) sig.size (masked sig ival) := rfl

theorem set_value_loop_first (sig : Signal) (fuel bits : Nat) (msg : List Nat) (ival : Int)
    (hfb : bits ≤ fuel) (j c : Nat) (hc : c < 8) :
    ((set_value_loop sig fuel msg ((sig.lsb / 8 : Nat) : Int) bits ival).getD j 0).testBit c =
      if sig.lsb / 8 < msg.length ∧ j < msg.length ∧ 0 ≤ off sig ((sig.lsb / 8 : Nat) : Int) j ∧
          ((sig.lsb % 8 : Nat) : Int) ≤ 8 * off sig ((sig.lsb / 8 : Nat) : Int) j + c ∧
          8 * off sig ((sig.lsb / 8 : Nat) : Int) j + c - ((sig.lsb % 8 : Nat) : Int) < bits
      then ibit ival (8 * off sig ((sig.lsb / 8 : Nat) : Int) j + c - ((sig.lsb % 8 : Nat) : Int)).toNat
      else (msg.getD j 0).testBit c := by
  rcases fuel with _ | n
  · rw [if_neg (by omega)]; rfl
  · unfold set_value_loop
    by_cases hg : (0 : Int) ≤ ((sig.lsb / 8 : Nat) : Int) ∧
        ((sig.lsb / 8 : Nat) : Int) < (msg.length : Int) ∧ 0 < bits
    · rw [if_pos hg]
      simp only [if_true]
      have hs0 : sig.lsb % 8 < 8 := Nat.mod_lt _ (by norm_num)
      have hsz' : min bits (8 - sig.lsb % 8) ≤ bits ∧ min bits (8 - sig.lsb % 8) ≤ 8 - sig.lsb % 8 ∧
          (min bits (8 - sig.lsb % 8) = bits ∨ min bits (8 - sig.lsb % 8) = 8 - sig.lsb % 8) := by
        rw [Nat.min_def]; split <;> omega
      generalize min bits (8 - sig.lsb % 8) = sz at hsz' ⊢
      have hoff' : off sig ((sig.lsb / 8 : Nat) : Int)
          (if sig.is_little_endian then ((sig.lsb / 8 : Nat) : Int) + 1 else ((sig.lsb / 8 : Nat) : Int) - 1) = 1 := by
        unfold off
        split <;> simp_all
      have hne' : ((sig.lsb / 8 : Nat) : Int) ≠
          (if sig.is_little_endian then ((sig.lsb / 8 : Nat) : Int) + 1 else ((sig.lsb / 8 : Nat) : Int) - 1) := by
        split <;> omega
      rw [set_value_loop_tail sig _ _ _ _ _ (by omega) hne' (by omega) j c hc, List.length_set,
        getD_set_eq]
      have hstep : off sig (if sig.is_little_endian then ((sig.lsb / 8 : Nat) : Int) + 1 else ((sig.lsb / 8 : Nat) : Int) - 1) (j : Int)
          = off sig ((sig.lsb / 8 : Nat) : Int) j - 1 := by
        unfold off
        split <;> simp_all <;> omega
      have hj0 : off sig ((sig.lsb / 8 : Nat) : Int) j = 0 ↔ ((sig.lsb / 8 : Nat) : Int).toNat = j := by
        unfold off
        split <;> omega
      have hin : 0 ≤ off sig ((sig.lsb / 8 : Nat) : Int) j → (j < msg.length) →
          0 < off sig ((sig.lsb / 8 : Nat) : Int) j →
          (0 ≤ (if sig.is_little_endian then ((sig.lsb / 8 : Nat) : Int) + 1 else ((sig.lsb / 8 : Nat) : Int) - 1) ∧
           (if sig.is_little_endian then ((sig.lsb / 8 : Nat) : Int) + 1 else ((sig.lsb / 8 : Nat) : Int) - 1) < (msg.length : Int)) := by
        unfold off
        split <;> omega
      rw [hstep]
      generalize (if sig.is_little_endian then ((sig.lsb / 8 : Nat) : Int) + 1 else ((sig.lsb / 8 : Nat) : Int) - 1) = i' at hin ⊢
      generalize off sig ((sig.lsb / 8 : Nat) : Int) j = d at hj0 hin ⊢
      generalize hs : sig.lsb % 8 = s0 at hs0 hsz' ⊢
      generalize hL : sig.lsb / 8 = L at hg hj0 ⊢
      by_cases hji : (L : Int).toNat = j
      · have h0 : d = 0 := hj0.2 hji
        subst h0
        have e1 : ¬ (0 ≤ i' ∧ i' < (msg.length : Int) ∧ j < msg.length ∧ (0 : Int) ≤ 0 - 1 ∧
            8 * (0 - 1) + (c : Int) < ((bits - sz : Nat) : Int)) := by omega
        have e2 : (L : Int).toNat = j ∧ (L : Int).toNat < msg.length := ⟨hji, by omega⟩
        rw [if_neg e1, if_pos e2, write_chunk_testBit _ _ _ _ _ (by omega) hc]
        by_cases hcb : s0 ≤ c ∧ c < s0 + sz
        · have e4 : L < msg.length ∧ j < msg.length ∧ (0 : Int) ≤ 0 ∧
              (s0 : Int) ≤ 8 * 0 + (c : Int) ∧ 8 * 0 + (c : Int) - (s0 : Int) < (bits : Int) := by omega
          rw [if_pos hcb, if_pos e4]
          congr 1
          omega
        · have e4 : ¬ (L < msg.length ∧ j < msg.length ∧ (0 : Int) ≤ 0 ∧
              (s0 : Int) ≤ 8 * 0 + (c : Int) ∧ 8 * 0 + (c : Int) - (s0 : Int) < (bits : Int)) := by omega
          rw [if_neg hcb, if_neg e4]
          congr 2
      · have h0 : d ≠ 0 := fun h => hji (hj0.1 h)
        have e2 : ¬ ((L : Int).toNat = j ∧ (L : Int).toNat < msg.length) := by omega
        rw [if_neg e2]
        by_cases hc2 : L < msg.length ∧ j < msg.length ∧ (0 : Int) ≤ d ∧
              (s0 : Int) ≤ 8 * d + (c : Int) ∧ 8 * d + (c : Int) - (s0 : Int) < (bits : Int)
        · have hi' := hin hc2.2.2.1 hc2.2.1 (by omega)
          have e1 : 0 ≤ i' ∧ i' < (msg.length : Int) ∧ j < msg.length ∧ 0 ≤ d - 1 ∧
            8 * (d - 1) + (c : Int) < ((bits - sz : Nat) : Int) := by omega
          rw [if_pos hc2, if_pos e1, ibit_shiftRight]
          congr 1
          omega
        · have e1 : ¬ (0 ≤ i' ∧ i' < (msg.length : Int) ∧ j < msg.length ∧ 0 ≤ d - 1 ∧
            8 * (d - 1) + (c : Int) < ((bits - sz : Nat) : Int)) := by omega
          rw [if_neg hc2, if_neg e1]
    · rw [if_neg hg, if_neg (by omega)]

theorem set_value_testBit (msg : List Nat) (sig : Signal) (ival : Int) (j c : Nat) (hc : c < 8) :
    ((set_value msg sig ival).getD j 0).testBit c =
      if written sig msg.length j c then ibit ival (bitIndex sig j c)
      else (msg.getD j 0).testBit c := by
  rw [set_value_eq, set_value_loop_first sig _ _ _ _ (le_refl _) j c hc]
  unfold written bitIndex
  split
  · rename_i h
    rw [ibit_masked sig ival _ (by omega)]
  · rfl

theorem set_value_loop_fuel (sig : Signal) :
    ∀ (fuel : Nat) (msg : List Nat) (i : Int) (bits : Nat) (ival : Int), bits ≤ fuel →
      set_value_loop sig (fuel + 1) msg i bits ival = set_value_loop sig fuel msg i bits ival := by
  intro fuel
  induction fuel with
  | zero =>
    intro msg i bits ival hb
    have h0 : bits = 0 := by omega
    subst h0
    simp [set_value_loop]
  | succ n ih =>
    intro msg i bits ival hb
    conv_lhs => rw [set_value_loop.eq_2]
    conv_rhs => rw [set_value_loop.eq_2]
    by_cases hg : 0 ≤ i ∧ i < (msg.length : Int) ∧ 0 < bits
    · rw [if_pos hg, if_pos hg]
      have hsh : (if ((sig.lsb / 8 : Nat) : Int) = i then sig.lsb % 8 else 0) < 8 := by
        have : sig.lsb % 8 < 8 := Nat.mod_lt _ (by norm_num)
        split <;> omega
      generalize (if ((sig.lsb / 8 : Nat) : Int) = i then sig.lsb % 8 else 0) = sh at hsh ⊢
      have hsz : 1 ≤ min bits (8 - sh) := by
        rw [Nat.min_def]; split <;> omega
      simp only []
      rw [ih _ _ _ _ (by omega)]
    · rw [if_neg hg, if_neg hg]

/-- Fuel beyond `bits` is never used: the loop of `set_value` has ended before the fuel
runs out. -/
theorem set_value_loop_fuel_add (sig : Signal) (fuel : Nat) (msg : List Nat) (i : Int)
    (bits : Nat) (ival : Int) (h : bits ≤ fuel) :
    ∀ extra : Nat, set_value_loop sig (fuel + extra) msg i bits ival =
      set_value_loop sig fuel msg i bits ival := by
  intro extra
  induction extra with
  | zero => rfl
  | succ n ih =>
    rw [← Nat.add_assoc, set_value_loop_fuel sig (fuel + n) msg i bits ival (by omega), ih]

theorem sigPos_snd_lt (sig : Signal) (k : Nat) : (sigPos sig k).2 < 8 := by
  unfold sigPos; exact Nat.mod_lt _ (by norm_num)

theorem mem_sigBits (sig : Signal) (p : Int × Nat) :
    p ∈ sigBits sig ↔ ∃ k, k < sig.size ∧ sigPos sig k = p := by
  unfold sigBits
  simp [List.mem_map, List.mem_range]

theorem insideFrame_iff (sig : Signal) (n : Nat) :
    insideFrame sig n = true ↔
      ∀ k, k < sig.size → 0 ≤ (sigPos sig k).1 ∧ (sigPos sig k).1 < (n : Int) := by
  unfold insideFrame sigBits
  simp [List.all_eq_true, List.mem_map, List.mem_range]

theorem disjointSigs_iff (a b : Signal) :
    disjointSigs a b = true ↔ ∀ p, p ∈ sigBits a → p ∉ sigBits b := by
  unfold disjointSigs
  simp [List.all_eq_true]

theorem disjointSigs_symm (a b : Signal) (h : disjointSigs a b = true) :
    disjointSigs b a = true := by
  rw [disjointSigs_iff] at h ⊢
  intro p hp hq
  exact h p hq hp

/-- A bit written by `set_value` is one of the signal's bit positions. -/
theorem mem_sigBits_of_written (sig : Signal) (n j c : Nat) (hc : c < 8)
    (h : written sig n j c) : ((j : Int), c) ∈ sigBits sig := by
  rw [mem_sigBits]
  refine ⟨bitIndex sig j c, ?_, ?_⟩
  · unfold written at h; unfold bitIndex; omega
  · unfold written at h
    unfold bitIndex sigPos
    unfold off at h ⊢
    have hs0 : sig.lsb % 8 < 8 := Nat.mod_lt _ (by norm_num)
    generalize sig.lsb % 8 = s0 at h hs0 ⊢
    generalize sig.lsb / 8 = L at h ⊢
    by_cases hle : sig.is_little_endian = true
    · simp only [hle, if_true] at h ⊢
      ext
      · simp only; omega
      · simp only; omega
    · have hle' : sig.is_little_endian = false := by simpa using hle
      simp only [hle', Bool.false_eq_true, if_false] at h ⊢
      ext
      · simp only; omega
      · simp only; omega

/-- The `k`-th bit position of a signal that starts inside the frame is written, as bit `k`,
as soon as the position itself is inside the frame. -/
theorem written_sigPos (sig : Signal) (n k : Nat) (hk : k < sig.size)
    (h0 : sig.lsb / 8 < n) (hj : 0 ≤ (sigPos sig k).1 ∧ (sigPos sig k).1 < (n : Int)) :
    written sig n (sigPos sig k).1.toNat (sigPos sig k).2 ∧
      bitIndex sig (sigPos sig k).1.toNat (sigPos sig k).2 = k := by
  unfold written bitIndex
  unfold sigPos at hj ⊢
  unfold off
  have hs0 : sig.lsb % 8 < 8 := Nat.mod_lt _ (by norm_num)
  generalize sig.lsb % 8 = s0 at hj hs0 ⊢
  generalize sig.lsb / 8 = L at hj h0 ⊢
  by_cases hle : sig.is_little_endian = true
  · simp only [hle, if_true] at hj ⊢
    omega
  · have hle' : sig.is_little_endian = false := by simpa using hle
    simp only [hle', Bool.false_eq_true, if_false] at hj ⊢
    omega

theorem toNat_emod_natCast (n w : Nat) : (((n : Int)) % 2 ^ w).toNat = n % 2 ^ w := by
  have : ((n : Int)) % 2 ^ w = ((n % 2 ^ w : Nat) : Int) := by push_cast; rfl
  rw [this, Int.toNat_ofNat]

theorem toNat_emod_negSucc (n w : Nat) :
    ((Int.negSucc n) % 2 ^ w).toNat = 2 ^ w - (n % 2 ^ w + 1) := by
  have hP : 0 < 2 ^ w := Nat.two_pow_pos w
  have hr : n % 2 ^ w < 2 ^ w := Nat.mod_lt _ hP
  have hn : 2 ^ w * (n / 2 ^ w) + n % 2 ^ w = n := Nat.div_add_mod n (2 ^ w)
  have e : Int.negSucc n =
      (((2 ^ w - (n % 2 ^ w + 1) : Nat) : Int)) + (-(((n / 2 ^ w : Nat) : Int)) - 1) * (((2 ^ w : Nat) : Int)) := by
    rw [Int.negSucc_eq]
    have hn' : ((2 ^ w : Nat) : Int) * ((n / 2 ^ w : Nat) : Int) + ((n % 2 ^ w : Nat) : Int) = (n : Int) := by
      exact_mod_cast hn
    rw [Int.ofNat_sub (by omega)]
    push_cast
    push_cast at hn'
    linear_combination hn'
  have e2 : ((2 : Int) ^ w) = (((2 ^ w : Nat) : Int)) := by push_cast; rfl
  rw [e2, e, Int.add_mul_emod_self, Int.emod_eq_of_lt (by omega) (by omega), Int.toNat_ofNat]

theorem testBit_toNat_emod (v : Int) (w c : Nat) :
    ((v % 2 ^ w).toNat).testBit c = (decide (c < w) && ibit v c) := by
  cases v with
  | ofNat n =>
    rw [Int.ofNat_eq_coe, toNat_emod_natCast, Nat.testBit_mod_two_pow, ibit_natCast]
  | negSucc n =>
    rw [toNat_emod_negSucc, Nat.testBit_two_pow_sub_succ (Nat.mod_lt _ (Nat.two_pow_pos w)),
      Nat.testBit_mod_two_pow, ibit_negSucc]
    cases decide (c < w) <;> simp

theorem sum_bits_nat (m : Nat) : ∀ n : Nat,
    ((List.range n).map (fun k => if m.testBit k then 2 ^ k else 0)).sum = m % 2 ^ n := by
  intro n
  induction n with
  | zero => simp [Nat.mod_one]
  | succ n ih =>
    rw [List.range_succ, List.map_append, List.sum_append, ih, Nat.mod_pow_succ]
    simp only [List.map_cons, List.map_nil, List.sum_cons, List.sum_nil, Nat.add_zero,
      Nat.testBit_to_div_mod]
    rcases Nat.mod_two_eq_zero_or_one (m / 2 ^ n) with h | h <;> simp [h]

theorem read_field_eq_of_bits (msg : List Nat) (sig : Signal) (v : Int)
    (h : ∀ k, k < sig.size → getBit msg (sigPos sig k).1 (sigPos sig k).2 = ibit v k) :
    read_field msg sig = (v % 2 ^ sig.size).toNat := by
  unfold read_field
  have e : (List.range sig.size).map (fun k =>
      if getBit msg (sigPos sig k).1 (sigPos sig k).2 then 2 ^ k else 0) =
      (List.range sig.size).map (fun k => if ((v % 2 ^ sig.size).toNat).testBit k then 2 ^ k else 0) := by
    apply List.map_congr_left
    intro k hk
    rw [List.mem_range] at hk
    rw [h k hk, testBit_toNat_emod]
    simp [hk]
  rw [e, sum_bits_nat]
  apply Nat.mod_eq_of_lt
  have h1 : 0 ≤ v % 2 ^ sig.size := Int.emod_nonneg _ (by positivity)
  have h2 : v % 2 ^ sig.size < 2 ^ sig.size := Int.emod_lt_of_pos _ (by positivity)
  have h3 : ((v % 2 ^ sig.size).toNat : Int) < ((2 ^ sig.size : Nat) : Int) := by
    rw [Int.toNat_of_nonneg h1]; push_cast; exact h2
  exact_mod_cast h3

theorem read_field_congr (msg1 msg2 : List Nat) (sig : Signal)
    (h : ∀ k, k < sig.size → getBit msg1 (sigPos sig k).1 (sigPos sig k).2 =
      getBit msg2 (sigPos sig k).1 (sigPos sig k).2) :
    read_field msg1 sig = read_field msg2 sig := by
  unfold read_field
  congr 1
  apply List.map_congr_left
  intro k hk
  rw [List.mem_range] at hk
  rw [h k hk]

theorem set_value_length (msg : List Nat) (sig : Signal) (ival : Int) :
    (set_value msg sig ival).length = msg.length := by
  rw [set_value_eq]; exact set_value_loop_length sig _ _ _ _ _

theorem set_value_loop_isBytes (sig : Signal) :
    ∀ (fuel : Nat) (msg : List Nat) (i : Int) (bits : Nat) (ival : Int),
      IsBytes msg → IsBytes (set_value_loop sig fuel msg i bits ival) := by
  intro fuel
  induction fuel with
  | zero => intro msg i bits ival h; exact h
  | succ n ih =>
    intro msg i bits ival h
    unfold set_value_loop
    split
    · apply ih
      intro x hx
      rcases List.mem_or_eq_of_mem_set hx with hx | hx
      · exact h x hx
      · rw [hx]; exact write_chunk_lt _ _ _ _
    · exact h

theorem set_value_isBytes (msg : List Nat) (sig : Signal) (ival : Int) (h : IsBytes msg) :
    IsBytes (set_value msg sig ival) := by
  rw [set_value_eq]; exact set_value_loop_isBytes sig _ _ _ _ _ h

theorem getBit_set_value_of_not_mem (msg : List Nat) (sig : Signal) (ival : Int) (j : Int)
    (c : Nat) (hc : c < 8) (h : (j, c) ∉ sigBits sig) :
    getBit (set_value msg sig ival) j c = getBit msg j c := by
  unfold getBit
  rw [set_value_length]
  by_cases hj : 0 ≤ j ∧ j < (msg.length : Int)
  · rw [if_pos hj, if_pos hj, set_value_testBit _ _ _ _ _ hc]
    have hw : ¬ written sig msg.length j.toNat c := by
      intro hw
      apply h
      have := mem_sigBits_of_written sig msg.length j.toNat c hc hw
      rwa [Int.toNat_of_nonneg hj.1] at this
    rw [if_neg hw]
  · rw [if_neg hj, if_neg hj]

theorem lsb_byte_lt (sig : Signal) (n : Nat) (hs : 0 < sig.size)
    (hin : insideFrame sig n = true) : sig.lsb / 8 < n := by
  rw [insideFrame_iff] at hin
  have h := hin 0 hs
  unfold sigPos at h
  have hs0 : sig.lsb % 8 < 8 := Nat.mod_lt _ (by norm_num)
  have : (sig.lsb % 8 + 0) / 8 = 0 := by omega
  rw [this] at h
  simp at h
  omega

theorem getBit_set_value_sigPos (msg : List Nat) (sig : Signal) (ival : Int) (k : Nat)
    (hk : k < sig.size) (hin : insideFrame sig msg.length = true) :
    getBit (set_value msg sig ival) (sigPos sig k).1 (sigPos sig k).2 = ibit ival k := by
  have h0 := lsb_byte_lt sig msg.length (by omega) hin
  have hj := (insideFrame_iff sig msg.length).1 hin k hk
  have hw := written_sigPos sig msg.length k hk h0 hj
  unfold getBit
  rw [set_value_length, if_pos hj, set_value_testBit _ _ _ _ _ (sigPos_snd_lt sig k), if_pos hw.1,
    hw.2]


/-! ## The signal loop of `pack` -/

theorem mapFind_mapSet {β : Type} (m : List (Nat × β)) (k k' : Nat) (v : β) :
    mapFind (mapSet m k v) k' = if k = k' then some v else mapFind m k' := by
  induction m with
  | nil => simp [mapSet, mapFind]
  | cons x m ih =>
    obtain ⟨a, b⟩ := x
    unfold mapSet
    by_cases h : a = k
    · rw [if_pos h]
      subst h
      unfold mapFind
      by_cases h2 : a = k' <;> simp [h2]
    · rw [if_neg h]
      unfold mapFind
      by_cases h2 : a = k'
      · have : ¬ k = k' := fun e => h (h2.trans e.symm)
        simp [h2, this]
      · simp [h2, ih]

theorem pack_signal_ret (address : Nat) (values : List (String × ℚ)) (st : PackState)
    (sig : Signal) :
    (pack_signal address values st sig).ret =
      if pack_ival sig ((valFind values sig.name).getD 0) ≠ 0
      then set_value st.ret sig (pack_ival sig ((valFind values sig.name).getD 0)) else st.ret := by
  unfold pack_signal
  simp only []
  split <;> [rfl; (split <;> rfl)]

theorem pack_signal_length (address : Nat) (values : List (String × ℚ)) (st : PackState)
    (sig : Signal) : (pack_signal address values st sig).ret.length = st.ret.length := by
  rw [pack_signal_ret]
  split
  · exact set_value_length _ _ _
  · rfl

theorem foldl_pack_signal_length (address : Nat) (values : List (String × ℚ)) :
    ∀ (l : List Signal) (st : PackState),
      (l.foldl (pack_signal address values) st).ret.length = st.ret.length := by
  intro l
  induction l with
  | nil => intro st; rfl
  | cons s l ih => intro st; rw [List.foldl_cons, ih, pack_signal_length]

theorem read_field_set_value_disjoint (msg : List Nat) (a sig : Signal) (v : Int)
    (h : disjointSigs a sig = true) :
    read_field (set_value msg a v) sig = read_field msg sig := by
  apply read_field_congr
  intro k hk
  apply getBit_set_value_of_not_mem _ _ _ _ _ (sigPos_snd_lt sig k)
  intro hmem
  exact (disjointSigs_iff a sig).1 h _ hmem ((mem_sigBits sig _).2 ⟨k, hk, rfl⟩)

theorem pack_signal_read_field (address : Nat) (values : List (String × ℚ)) (st : PackState)
    (a sig : Signal) (h : disjointSigs a sig = true) :
    read_field (pack_signal address values st a).ret sig = read_field st.ret sig := by
  rw [pack_signal_ret]
  split
  · exact read_field_set_value_disjoint _ _ _ _ h
  · rfl

/-- The counter block of `pack` never runs: `counter_sig` is only set together with
`counter_set`. -/
theorem foldl_pack_signal_counter (address : Nat) (values : List (String × ℚ)) :
    ∀ (l : List Signal) (st : PackState),
      (st.counter_sig.isSome = true → st.counter_set = true) →
      ((l.foldl (pack_signal address values) st).counter_sig.isSome = true →
        (l.foldl (pack_signal address values) st).counter_set = true) := by
  intro l
  induction l with
  | nil => intro st h; exact h
  | cons s l ih =>
    intro st h
    rw [List.foldl_cons]
    apply ih
    unfold pack_signal
    simp only []
    split
    · exact h
    · split
      · intro _; rfl
      · exact h

theorem pack_counter_eq (address : Nat) (st : PackState)
    (h : st.counter_sig.isSome = true → st.counter_set = true) : pack_counter address st = st := by
  unfold pack_counter
  split
  · rename_i cs hcs
    have : st.counter_set = true := h (by rw [hcs]; rfl)
    simp [this]
  · rfl

theorem pack_counter_pack_signals (p : CANPacker) (msg : Msg) (address : Nat)
    (values : List (String × ℚ)) :
    pack_counter address (pack_signals p msg address values) = pack_signals p msg address values := by
  apply pack_counter_eq
  unfold pack_signals
  apply foldl_pack_signal_counter
  intro h
  simp at h

theorem pack_signals_length (p : CANPacker) (msg : Msg) (address : Nat)
    (values : List (String × ℚ)) : (pack_signals p msg address values).ret.length = msg.size := by
  unfold pack_signals
  rw [foldl_pack_signal_length]
  simp

theorem pack_checksum_length (call : Nat → Nat → Signal → List Nat → Nat) (address : Nat)
    (st : PackState) : (pack_checksum call address st).length = st.ret.length := by
  unfold pack_checksum
  split
  · split
    · exact set_value_length _ _ _
    · rfl
  · rfl

theorem foldl_pack_signal_checksum (address : Nat) (values : List (String × ℚ)) :
    ∀ (l : List Signal) (st : PackState) (cs : Signal),
      (l.foldl (pack_signal address values) st).checksum_sig = some cs →
      (cs ∈ l ∧ cs.name = "CHECKSUM") ∨ st.checksum_sig = some cs := by
  intro l
  induction l with
  | nil => intro st cs h; exact Or.inr h
  | cons s l ih =>
    intro st cs h
    rw [List.foldl_cons] at h
    rcases ih _ cs h with h1 | h1
    · exact Or.inl ⟨List.mem_cons_of_mem _ h1.1, h1.2⟩
    · unfold pack_signal at h1
      simp only [] at h1
      split at h1
      · rename_i hn
        simp only [Option.some.injEq] at h1
        subst h1
        exact Or.inl ⟨List.mem_cons_self _ _, hn⟩
      · split at h1 <;> exact Or.inr h1

theorem foldl_pack_signal_checksum_some (address : Nat) (values : List (String × ℚ)) :
    ∀ (l : List Signal) (st : PackState), (∃ s ∈ l, s.name = "CHECKSUM") →
      ∃ cs, (l.foldl (pack_signal address values) st).checksum_sig = some cs ∧ cs ∈ l ∧
        cs.name = "CHECKSUM" := by
  intro l
  induction l using List.reverseRecOn with
  | nil => intro st h; simp at h
  | append_singleton l s ih =>
    intro st h
    rw [List.foldl_append, List.foldl_cons, List.foldl_nil]
    by_cases hn : s.name = "CHECKSUM"
    · refine ⟨s, ?_, by simp, hn⟩
      unfold pack_signal
      simp [hn]
    · obtain ⟨x, hx, hxn⟩ := h
      have hx' : x ∈ l := by
        rcases List.mem_append.1 hx with h1 | h1
        · exact h1
        · simp only [List.mem_singleton] at h1
          subst h1
          exact absurd hxn hn
      obtain ⟨cs, h1, h2, h3⟩ := ih st ⟨x, hx', hxn⟩
      refine ⟨cs, ?_, List.mem_append_left _ h2, h3⟩
      unfold pack_signal
      simp only [if_neg hn]
      split <;> exact h1


/-! ## Raw conversion -/

theorem toI64_emod (v : Int) (n : Nat) (h : n ≤ 64) : toI64 v % 2 ^ n = v % 2 ^ n := by
  have hd : (2 : Int) ^ n ∣ 2 ^ 64 := pow_dvd_pow 2 h
  have e : v - toI64 v = 2 ^ 64 * ((v + 2 ^ 63) / 2 ^ 64) := by
    unfold toI64
    have := Int.emod_add_ediv (v + 2 ^ 63) (2 ^ 64)
    omega
  have hm : toI64 v ≡ v [ZMOD 2 ^ n] := by
    rw [Int.modEq_iff_dvd, e]
    exact Dvd.dvd.mul_right hd _
  exact hm

theorem natCast_mod_emod (a n : Nat) (h : n ≤ 64) :
    ((a % 2 ^ 64 : Nat) : Int) % 2 ^ n = (a : Int) % 2 ^ n := by
  have hd : (2 : Int) ^ n ∣ ((2 ^ 64 : Nat) : Int) := by
    have : (2 : Int) ^ n ∣ 2 ^ 64 := pow_dvd_pow 2 h
    exact_mod_cast this
  rw [Int.natCast_mod, Int.emod_emod_of_dvd _ hd]

theorem toU64_emod (v : Int) (n : Nat) (h : n ≤ 64) : ((toU64 v : Nat) : Int) % 2 ^ n = v % 2 ^ n := by
  have hd : (2 : Int) ^ n ∣ 2 ^ 64 := pow_dvd_pow 2 h
  unfold toU64
  rw [Int.toNat_of_nonneg (Int.emod_nonneg _ (by norm_num))]
  exact Int.emod_emod_of_dvd _ hd

set_option maxRecDepth 20000 in
/-- Values of the double arithmetic: `0.1` is not one tenth; `0.5 - 2^-60` rounds to `0.5`;
`0.25 / 0.1` and `-0.25 / 0.1` round to `2.5` and `-2.5`; `2^1024` overflows; `2^-1080`
underflows to zero; between subnormal numbers a halfway case goes to the even one. -/
theorem toDbl_examples :
    toDbl (1 / 10) = Dbl.fin tenth ∧ tenth ≠ 1 / 10 ∧
    fsub (1 / 2) (1 / 2 ^ 60) = Dbl.fin (1 / 2) ∧
    fdiv (Dbl.fin (1 / 4)) tenth = Dbl.fin (5 / 2) ∧
    fdiv (Dbl.fin (-1 / 4)) tenth = Dbl.fin (-5 / 2) ∧
    fdiv (Dbl.fin 1) 0 = Dbl.nonfinite ∧
    toDbl (pow2 1024) = Dbl.nonfinite ∧
    toDbl (pow2 1024 - pow2 970) = Dbl.nonfinite ∧
    toDbl (pow2 1024 - pow2 971) = Dbl.fin (pow2 1024 - pow2 971) ∧
    toDbl (pow2 (-1080)) = Dbl.fin 0 ∧
    toDbl (3 * pow2 (-1075)) = Dbl.fin (pow2 (-1073)) ∧
    toDbl (5 * pow2 (-1075)) = Dbl.fin (pow2 (-1073)) := by
  refine ⟨?_, ?_, ?_, ?_, ?_, ?_, ?_, ?_, ?_, ?_, ?_, ?_⟩
  · with_unfolding_all rfl
  · with_unfolding_all decide
  · with_unfolding_all rfl
  · with_unfolding_all rfl
  · with_unfolding_all rfl
  · with_unfolding_all rfl
  · with_unfolding_all rfl
  · with_unfolding_all rfl
  · with_unfolding_all rfl
  · with_unfolding_all rfl
  · with_unfolding_all rfl
  · with_unfolding_all rfl

/-- Values of the raw conversion where C++ leaves the result undefined: a quotient that is
not finite or out of range converts to `INT64_MIN`, and `1ULL << 64` is 1. -/
theorem pack_ival_examples :
    castI64 Dbl.nonfinite = -(2 ^ 63) ∧ castI64 (Dbl.fin (2 ^ 63)) = -(2 ^ 63) ∧
    castI64 (Dbl.fin (-(2 ^ 63))) = -(2 ^ 63) ∧ castI64 (Dbl.fin (-5 / 2)) = -2 ∧
    shl64 64 = 1 ∧ shl64 63 = 2 ^ 63 ∧
    pack_ival exWide (-1) = 0 ∧ pack_ival exWide (-2) = -1 ∧
    pack_ival exTenth (1 / 4) = 3 ∧ pack_ival exTenth (-1 / 4) = 253 := by
  refine ⟨?_, ?_, ?_, ?_, ?_, ?_, ?_, ?_, ?_, ?_⟩
  · with_unfolding_all rfl
  · with_unfolding_all rfl
  · with_unfolding_all rfl
  · with_unfolding_all rfl
  · with_unfolding_all rfl
  · with_unfolding_all rfl
  · with_unfolding_all rfl
  · with_unfolding_all rfl
  · with_unfolding_all rfl
  · with_unfolding_all rfl

theorem castI64_fround_fin (q : ℚ) (hlo : -(2 ^ 63 : Int) ≤ cround q)
    (hhi : cround q < 2 ^ 63) : castI64 (fround (Dbl.fin q)) = cround q := by
  have e : (if (0 : ℚ) ≤ ((cround q : Int) : ℚ) then ⌊((cround q : Int) : ℚ)⌋
      else -⌊-((cround q : Int) : ℚ)⌋) = cround q := by
    split
    · exact Int.floor_intCast _
    · rw [← Int.cast_neg, Int.floor_intCast, neg_neg]
  unfold fround castI64
  simp only [e]
  rw [if_pos ⟨hlo, hhi⟩]

theorem shl64_of_lt (n : Nat) (h : n < 64) : shl64 n = 2 ^ n := by
  unfold shl64
  rw [Nat.mod_eq_of_lt h, Nat.one_shiftLeft]

theorem pack_ival_emod (sig : Signal) (v q : ℚ) (hq : rawQuot sig v = Dbl.fin q)
    (hlo : -(2 ^ 63 : Int) ≤ cround q) (hhi : cround q < 2 ^ 63) (h : sig.size ≤ 64)
    (hneg : sig.size = 64 → 0 ≤ cround q) :
    pack_ival sig v % 2 ^ sig.size = cround q % 2 ^ sig.size := by
  unfold pack_ival
  simp only [hq, castI64_fround_fin q hlo hhi]
  split
  · rename_i hlt
    have h63 : sig.size < 64 := by
      rcases Nat.lt_or_ge sig.size 64 with h1 | h1
      · exact h1
      · exact absurd (hneg (by omega)) (by omega)
    rw [shl64_of_lt _ h63, toI64_emod _ _ h, natCast_mod_emod _ _ h, Int.natCast_add,
      Int.add_emod, toU64_emod _ _ h]
    have : ((2 ^ sig.size : Nat) : Int) % 2 ^ sig.size = 0 := by
      push_cast; exact Int.emod_self
    rw [this, Int.zero_add, Int.emod_emod]
  · rfl

theorem rawQuot_factor_ne_zero (sig : Signal) (v q : ℚ) (hq : rawQuot sig v = Dbl.fin q) :
    sig.factor ≠ 0 := by
  intro h0
  unfold rawQuot fdiv at hq
  rw [h0] at hq
  split at hq
  · simp at hq
  · simp at hq

theorem cround_sub_le (x : ℚ) : |(cround x : ℚ) - x| ≤ 1 / 2 := by
  unfold cround
  split
  · have h1 := Int.floor_le (x + 1 / 2)
    have h2 := Int.lt_floor_add_one (x + 1 / 2)
    rw [abs_le]
    constructor <;> linarith
  · have h1 := Int.floor_le (-x + 1 / 2)
    have h2 := Int.lt_floor_add_one (-x + 1 / 2)
    push_cast
    rw [abs_le]
    constructor <;> linarith

theorem cround_natCast (n : Nat) : cround (n : ℚ) = n := by
  unfold cround
  have h0 : (0 : ℚ) ≤ (n : ℚ) := Nat.cast_nonneg n
  rw [if_pos h0, Int.floor_eq_iff]
  constructor
  · push_cast; linarith
  · push_cast; linarith

/-! ### Exact cases of the double arithmetic

Natural numbers below `2^53` are doubles; with factor 1 and offset 0 the raw integer of such
a value is the value itself. -/

theorem bitLen_le : ∀ (fuel n k : Nat), n < 2 ^ k → bitLen fuel n ≤ k := by
  intro fuel
  induction fuel with
  | zero => intro n k _; simp [bitLen]
  | succ fuel ih =>
    intro n k h
    unfold bitLen
    split
    · exact Nat.zero_le _
    · rename_i hn
      cases k with
      | zero => simp at h; exact absurd h hn
      | succ k =>
        have : n / 2 < 2 ^ k := by
          rw [Nat.div_lt_iff_lt_mul (by norm_num)]
          rw [pow_succ] at h
          exact h
        exact Nat.succ_le_succ (ih _ _ this)

theorem pow2_pos (u : Int) : 0 < pow2 u := by
  unfold pow2
  split
  · rw [Nat.one_shiftLeft]; positivity
  · rw [Nat.one_shiftLeft]; positivity

theorem pow2_of_nonpos (u : Int) (h : u ≤ 0) : pow2 u = 1 / ((2 ^ (-u).toNat : Nat) : ℚ) := by
  unfold pow2
  split
  · have : u = 0 := by omega
    subst this
    simp
  · rw [Nat.one_shiftLeft]
    simp

theorem roundEven_natCast (m : Nat) : roundEven (m : ℚ) = m := by
  unfold roundEven
  simp

theorem ilog2_natCast_le (n : Nat) (k : Nat) (h : n < 2 ^ k) :
    ilog2 (n : ℚ) ≤ (k : Int) - 1 := by
  unfold ilog2
  have h1 : ((n : ℚ)).num.natAbs = n := by simp
  have h2 : ((n : ℚ)).den = 1 := by simp
  simp only [h1, h2]
  have h3 : bitLen 1 1 = 1 := by decide
  have h4 := bitLen_le n n k h
  rw [h3]
  split <;> omega

theorem toDbl_natCast (n : Nat) (h : n < 2 ^ 53) : toDbl (n : ℚ) = Dbl.fin n := by
  unfold toDbl
  by_cases h0 : n = 0
  · subst h0; simp
  · have hq : (n : ℚ) ≠ 0 := by exact_mod_cast h0
    have hq' : ¬ ((n : ℚ) < 0) := by
      have : (0 : ℚ) ≤ n := Nat.cast_nonneg n
      linarith
    rw [if_neg hq]
    simp only [abs_of_nonneg (Nat.cast_nonneg n : (0 : ℚ) ≤ n), if_neg hq']
    have hl := ilog2_natCast_le n 53 h
    have hu : max (ilog2 (n : ℚ) - 52) (-1074) ≤ 0 := max_le (by omega) (by norm_num)
    generalize max (ilog2 (n : ℚ) - 52) (-1074) = u at hu
    have e1 : (n : ℚ) / pow2 u = ((n * 2 ^ (-u).toNat : Nat) : ℚ) := by
      rw [pow2_of_nonpos u hu]
      push_cast
      field_simp
    have e2 : (((n * 2 ^ (-u).toNat : Nat) : Nat) : ℚ) * pow2 u = n := by
      rw [pow2_of_nonpos u hu]
      push_cast
      field_simp
    rw [e1, roundEven_natCast, e2]
    have hbig : ¬ pow2 1024 ≤ (n : ℚ) := by
      have e3 : pow2 1024 = ((2 ^ (1024 : Int).toNat : Nat) : ℚ) := by
        unfold pow2
        rw [if_pos (by norm_num), Nat.one_shiftLeft]
      have key : ∀ k : Nat, 53 ≤ k → (n : ℚ) < ((2 ^ k : Nat) : ℚ) := fun k hk =>
        Nat.cast_lt.2 (lt_of_lt_of_le h (Nat.pow_le_pow_right (by norm_num) hk))
      rw [e3, not_le]
      exact key _ (by decide)
    rw [if_neg hbig]

theorem rawQuot_natCast (sig : Signal) (n : Nat) (hf : sig.factor = 1) (ho : sig.offset = 0)
    (h : n < 2 ^ 53) : rawQuot sig (n : ℚ) = Dbl.fin n := by
  unfold rawQuot fsub fdiv
  rw [hf, ho, sub_zero, toDbl_natCast n h]
  simp only [one_ne_zero, if_false, div_one]
  exact toDbl_natCast n h

/-- For factor 1, offset 0 and a natural number below `2^53` the raw integer computed by
`pack` is the nearest integer of the exact quotient. -/
theorem pack_ival_natCast (sig : Signal) (n : Nat) (hf : sig.factor = 1) (ho : sig.offset = 0)
    (h : n < 2 ^ 53) : pack_ival sig (n : ℚ) = n ∧ rawRound sig (n : ℚ) = n := by
  have hc : cround (n : ℚ) = n := cround_natCast n
  constructor
  · unfold pack_ival
    simp only [rawQuot_natCast sig n hf ho h]
    rw [castI64_fround_fin _ (by rw [hc]; omega) (by rw [hc]; omega), hc]
    simp
  · unfold rawRound
    rw [hf, ho, sub_zero, div_one, hc]

theorem getBit_replicate (n : Nat) (j : Int) (c : Nat) : getBit (List.replicate n 0) j c = false := by
  unfold getBit
  split
  · rw [List.getD_eq_getElem?_getD, List.getElem?_replicate]
    split <;> simp
  · rfl

theorem read_field_replicate (n : Nat) (sig : Signal) : read_field (List.replicate n 0) sig = 0 := by
  unfold read_field
  apply List.sum_eq_zero
  intro x hx
  simp only [List.mem_map, getBit_replicate] at hx
  obtain ⟨k, _, hk⟩ := hx
  simpa using hk.symm


/-! ## `pack` -/

theorem pack_ok (call : Nat → Nat → Signal → List Nat → Nat) (p : CANPacker) (address : Nat)
    (values : List (String × ℚ)) (msg : Msg) (hmsg : mapFind p.message_lookup address = some msg) :
    pack call p address values =
      (Except.ok (pack_checksum call address (pack_signals p msg address values)),
       { p with counters := (pack_signals p msg address values).counters }) := by
  unfold pack
  rw [hmsg]
  simp only [pack_counter_pack_signals]

theorem pairwise_disjoint_of_ne (l : List Signal)
    (hdisj : l.Pairwise (fun a b => disjointSigs a b = true)) (a b : Signal)
    (ha : a ∈ l) (hb : b ∈ l) (hab : a ≠ b) : disjointSigs a b = true :=
  List.Pairwise.forall (fun x y h => disjointSigs_symm x y h) hdisj ha hb hab

theorem foldl_pack_signal_read_field_self (address : Nat) (values : List (String × ℚ))
    (sig : Signal) :
    ∀ (l : List Signal) (st : PackState),
      (∀ s ∈ l, s ≠ sig → disjointSigs s sig = true) →
      insideFrame sig st.ret.length = true →
      (read_field st.ret sig = 0 ∨ read_field st.ret sig =
        (pack_ival sig ((valFind values sig.name).getD 0) % 2 ^ sig.size).toNat) →
      (sig ∈ l ∨ read_field st.ret sig =
        (pack_ival sig ((valFind values sig.name).getD 0) % 2 ^ sig.size).toNat) →
      read_field (l.foldl (pack_signal address values) st).ret sig =
        (pack_ival sig ((valFind values sig.name).getD 0) % 2 ^ sig.size).toNat := by
  intro l
  induction l with
  | nil =>
    intro st _ _ _ h
    rcases h with h | h
    · simp at h
    · exact h
  | cons s l ih =>
    intro st hoth hin h01 hmem
    rw [List.foldl_cons]
    have hin' : insideFrame sig (pack_signal address values st s).ret.length = true := by
      rw [pack_signal_length]; exact hin
    have hoth' : ∀ a ∈ l, a ≠ sig → disjointSigs a sig = true :=
      fun a ha => hoth a (List.mem_cons_of_mem _ ha)
    by_cases e : s = sig
    · subst e
      have hR : read_field (pack_signal address values st s).ret s =
          (pack_ival s ((valFind values s.name).getD 0) % 2 ^ s.size).toNat := by
        rw [pack_signal_ret]
        split
        · exact read_field_eq_of_bits _ _ _
            (fun k hk => getBit_set_value_sigPos _ _ _ k hk hin)
        · rename_i h0
          have h0' : pack_ival s ((valFind values s.name).getD 0) = 0 := by
            by_contra hne; exact h0 hne
          rw [h0'] at h01 ⊢
          rcases h01 with h | h
          · rw [h]; simp
          · exact h
      exact ih _ hoth' hin' (Or.inr hR) (Or.inr hR)
    · have hd := hoth s (List.mem_cons_self _ _) e
      have hsame := pack_signal_read_field address values st s sig hd
      refine ih _ hoth' hin' (by rw [hsame]; exact h01) ?_
      rcases hmem with h | h
      · rcases List.mem_cons.1 h with h1 | h1
        · exact absurd h1.symm e
        · exact Or.inl h1
      · exact Or.inr (by rw [hsame]; exact h)

theorem pack_signals_read_field (p : CANPacker) (msg : Msg) (address : Nat)
    (values : List (String × ℚ)) (sig : Signal) (hs : sig ∈ msg.sigs)
    (hoth : ∀ s ∈ msg.sigs, s ≠ sig → disjointSigs s sig = true)
    (hin : insideFrame sig msg.size = true) :
    read_field (pack_signals p msg address values).ret sig =
      (pack_ival sig ((valFind values sig.name).getD 0) % 2 ^ sig.size).toNat := by
  unfold pack_signals
  apply foldl_pack_signal_read_field_self _ _ _ _ _ hoth
  · simpa using hin
  · exact Or.inl (read_field_replicate _ _)
  · exact Or.inl hs

theorem pack_signals_checksum_sig (p : CANPacker) (msg : Msg) (address : Nat)
    (values : List (String × ℚ)) (cs : Signal)
    (h : (pack_signals p msg address values).checksum_sig = some cs) :
    cs ∈ msg.sigs ∧ cs.name = "CHECKSUM" := by
  unfold pack_signals at h
  rcases foldl_pack_signal_checksum _ _ _ _ cs h with h1 | h1
  · exact h1
  · simp at h1

theorem pack_signals_checksum_unique (p : CANPacker) (msg : Msg) (address : Nat)
    (values : List (String × ℚ)) (cs : Signal) (hcs : cs ∈ msg.sigs) (hname : cs.name = "CHECKSUM")
    (huniq : ∀ s ∈ msg.sigs, s.name = "CHECKSUM" → s = cs) :
    (pack_signals p msg address values).checksum_sig = some cs := by
  unfold pack_signals
  obtain ⟨cs', h1, h2, h3⟩ := foldl_pack_signal_checksum_some address values msg.sigs
    { ret := List.replicate msg.size 0, counter_set := false, counter_sig := none,
      checksum_sig := none, counters := p.counters } ⟨cs, hcs, hname⟩
  rw [h1, huniq cs' h2 h3]

theorem pack_checksum_field (call : Nat → Nat → Signal → List Nat → Nat) (address : Nat)
    (st : PackState) (cs : Signal) (f : Nat) (hcs : st.checksum_sig = some cs)
    (hf : cs.calc_checksum = some f) (hin : insideFrame cs st.ret.length = true) :
    read_field (pack_checksum call address st) cs = (call f address cs st.ret % 2 ^ 32) % 2 ^ cs.size := by
  unfold pack_checksum
  simp only [hcs, hf]
  rw [read_field_eq_of_bits _ cs _ (fun k hk => getBit_set_value_sigPos _ cs _ k hk hin)]
  have e : (((call f address cs st.ret % 2 ^ 32 : Nat) : Int)) % 2 ^ cs.size =
      (((call f address cs st.ret % 2 ^ 32) % 2 ^ cs.size : Nat) : Int) := by
    push_cast; rfl
  rw [e, Int.toNat_ofNat]

/-- The chunk description of the bit positions: the first `8 - lsb % 8` indices stay in
byte `lsb / 8` from bit `lsb % 8` on, the following ones fill chunks of 8 from bit 0 of each
next byte in the signal's direction. -/
theorem sigPos_chunks (sig : Signal) (k : Nat) :
    (k < 8 - sig.lsb % 8 → sigPos sig k = (((sig.lsb / 8 : Nat) : Int), sig.lsb % 8 + k)) ∧
    (8 - sig.lsb % 8 ≤ k → sigPos sig k =
      (if sig.is_little_endian
        then ((sig.lsb / 8 : Nat) : Int) + (1 + ((k - (8 - sig.lsb % 8)) / 8 : Nat))
        else ((sig.lsb / 8 : Nat) : Int) - (1 + ((k - (8 - sig.lsb % 8)) / 8 : Nat)),
       (k - (8 - sig.lsb % 8)) % 8)) := by
  have hs0 : sig.lsb % 8 < 8 := Nat.mod_lt _ (by norm_num)
  unfold sigPos
  generalize sig.lsb % 8 = s0 at hs0 ⊢
  generalize sig.lsb / 8 = L
  constructor
  · intro h
    have e1 : (s0 + k) / 8 = 0 := by omega
    have e2 : (s0 + k) % 8 = s0 + k := by omega
    simp [e1, e2]
  · intro h
    have e1 : (s0 + k) / 8 = 1 + (k - (8 - s0)) / 8 := by omega
    have e2 : (s0 + k) % 8 = (k - (8 - s0)) % 8 := by omega
    simp [e1, e2]

/-- C1, bit isolation of `set_value`: for every frame, signal (any width, so in particular
`1 ≤ size ≤ 64`, either byte order) and value, the result has the length of the frame, is a
byte sequence when the frame is, and every bit `(j, c)` that is not one of the signal's bit
positions `sigBits sig` is unchanged. -/
theorem set_value_bit_isolation (msg : List Nat) (sig : Signal) (ival : Int) :
    (set_value msg sig ival).length = msg.length ∧
    (IsBytes msg → IsBytes (set_value msg sig ival)) ∧
    ∀ (j : Int) (c : Nat), c < 8 → (j, c) ∉ sigBits sig →
      getBit (set_value msg sig ival) j c = getBit msg j c :=
  ⟨set_value_length msg sig ival, set_value_isBytes msg sig ival,
    fun j c hc h => getBit_set_value_of_not_mem msg sig ival j c hc h⟩

theorem set_value_bit_isolation_witness :
    (3 : Nat) < 8 ∧ ((0 : Int), 3) ∉ sigBits exMid ∧
    (set_value [255, 255, 255] exMid 0).length = 3 ∧
    getBit (set_value [255, 255, 255] exMid 0) 0 3 = getBit [255, 255, 255] 0 3 ∧
    getBit [255, 255, 255] 0 3 = true ∧ set_value [255, 255, 255] exMid 0 = [15, 0, 255] :=
  ⟨by decide, by decide, (set_value_bit_isolation [255, 255, 255] exMid 0).1,
    (set_value_bit_isolation [255, 255, 255] exMid 0).2.2 0 3 (by decide) (by decide),
    by decide, by decide⟩

/-- C2, read-back of `set_value`: when all bit positions of the signal lie inside the frame,
bit `k` of the value is stored at the `k`-th bit position for every `k < size`, and the field
reads `value mod 2^size`; this holds for every width, `size = 64` included. -/
theorem set_value_read_back (msg : List Nat) (sig : Signal) (ival : Int)
    (hin : insideFrame sig msg.length = true) :
    (∀ k, k < sig.size →
      getBit (set_value msg sig ival) (sigPos sig k).1 (sigPos sig k).2 = ibit ival k) ∧
    read_field (set_value msg sig ival) sig = (ival % 2 ^ sig.size).toNat :=
  ⟨fun k hk => getBit_set_value_sigPos msg sig ival k hk hin,
    read_field_eq_of_bits _ sig ival (fun k hk => getBit_set_value_sigPos msg sig ival k hk hin)⟩

theorem set_value_read_back_witness :
    insideFrame exWide [0, 0, 0, 0, 0, 0, 0, 0].length = true ∧
    read_field (set_value [0, 0, 0, 0, 0, 0, 0, 0] exWide (-2)) exWide = 2 ^ 64 - 2 :=
  ⟨by decide, (set_value_read_back [0, 0, 0, 0, 0, 0, 0, 0] exWide (-2) (by decide)).2.trans (by decide)⟩

theorem pack_checksum_read_field_of (call : Nat → Nat → Signal → List Nat → Nat) (address : Nat)
    (st : PackState) (sig : Signal)
    (h : ∀ cs, st.checksum_sig = some cs →
      disjointSigs cs sig = true ∨ cs.calc_checksum = none) :
    read_field (pack_checksum call address st) sig = read_field st.ret sig := by
  unfold pack_checksum
  split
  · rename_i cs hcs
    rcases h cs hcs with h1 | h1
    · split
      · exact read_field_set_value_disjoint _ _ _ _ h1
      · rfl
    · rw [h1]
  · rfl

theorem pack_read_field (call : Nat → Nat → Signal → List Nat → Nat) (p : CANPacker)
    (address : Nat) (values : List (String × ℚ)) (msg : Msg) (sig : Signal)
    (hoth : ∀ s ∈ msg.sigs, s ≠ sig → disjointSigs s sig = true)
    (hin : insideFrame sig msg.size = true) (hs : sig ∈ msg.sigs)
    (hk : sig.name ≠ "CHECKSUM" ∨ sig.calc_checksum = none) :
    read_field (pack_checksum call address (pack_signals p msg address values)) sig =
      (pack_ival sig (physValue values sig) % 2 ^ sig.size).toNat := by
  rw [pack_checksum_read_field_of, pack_signals_read_field _ _ _ _ _ hs hoth hin]
  · rfl
  · intro cs hcs
    have h1 := pack_signals_checksum_sig _ _ _ _ _ hcs
    by_cases e : cs = sig
    · subst e
      rcases hk with hk | hk
      · exact absurd h1.2 hk
      · exact Or.inr hk
    · exact Or.inl (hoth cs h1.1 e)

theorem exSpeed_rawQuot :
    rawQuot exSpeed (physValue [("SPEED", 10)] exSpeed) = Dbl.fin 20 := by
  with_unfolding_all rfl

theorem cround_twenty : cround 20 = 20 := by
  with_unfolding_all decide

theorem decode_error_le_of (r : Int) (q v factor offset : ℚ) (hf : factor ≠ 0)
    (hr : r = cround q) :
    |((r : ℚ) * factor + offset) - v| ≤ |factor| * (1 / 2 + |q - (v - offset) / factor|) := by
  have h := cround_sub_le q
  rw [← hr] at h
  have e : ((r : ℚ) * factor + offset) - v =
      factor * (((r : ℚ) - q) + (q - (v - offset) / factor)) := by
    field_simp
    ring
  rw [e, abs_mul]
  apply mul_le_mul_of_nonneg_left _ (abs_nonneg _)
  calc |((r : ℚ) - q) + (q - (v - offset) / factor)|
      ≤ |(r : ℚ) - q| + |q - (v - offset) / factor| := abs_add _ _
    _ ≤ 1 / 2 + |q - (v - offset) / factor| := by linarith

set_option maxRecDepth 20000 in
theorem exWord_pack :
    (pack exCall exRawPacker 0x800 [("WORD", 2 ^ 63 + 2 ^ 11)]).1 = Except.ok [0, 0] := by
  with_unfolding_all rfl

/-- C3, counterexample.  The signal `TENTH` (8 bits, factor the double `0.1`, offset 0) is
the only signal of its message, inside the frame; for the value `0.25` the nearest integer
of the exact quotient is 2, but the double division gives `2.5`, the frame returned by
`pack` is `[3]`, the field reads 3, and `3 * 0.1` is further than half a factor from
`0.25`.  With the 64-bit signal `W` (factor 1) and the value `-1`, `r = -1` but the frame is
all zero (`1ULL << 64` is 1 on x86-64), not `2^64 - 1`.  With the 16-bit signal `WORD`
(factor 1) and the value `2^63 + 2^11`, `r mod 2^16` is 2048 but the frame is all zero (the
conversion to `int64_t` is out of range and gives `INT64_MIN` on x86-64). -/
theorem pack_round_trip_counterexample :
    (mapFind exRawPacker.message_lookup 0x600 = some exTenthMsg ∧
      exTenthMsg.sigs.Pairwise (fun a b => disjointSigs a b = true) ∧
      (∀ s ∈ exTenthMsg.sigs, insideFrame s exTenthMsg.size = true) ∧
      exTenth ∈ exTenthMsg.sigs ∧ exTenth.name ≠ "COUNTER" ∧ exTenth.name ≠ "CHECKSUM" ∧
      rawRound exTenth (physValue [("TENTH", 1 / 4)] exTenth) = 2 ∧
      (pack exCall exRawPacker 0x600 [("TENTH", 1 / 4)]).1 = Except.ok [3] ∧
      read_field [3] exTenth = 3 ∧ (3 : Int) < 2 ^ exTenth.size ∧
      ¬ |((3 : ℚ) * exTenth.factor + exTenth.offset) - physValue [("TENTH", 1 / 4)] exTenth|
          ≤ |exTenth.factor| / 2) ∧
    (mapFind exRawPacker.message_lookup 0x700 = some exWideMsg ∧
      exWideMsg.sigs.Pairwise (fun a b => disjointSigs a b = true) ∧
      (∀ s ∈ exWideMsg.sigs, insideFrame s exWideMsg.size = true) ∧
      exWide ∈ exWideMsg.sigs ∧ exWide.name ≠ "COUNTER" ∧ exWide.name ≠ "CHECKSUM" ∧
      rawRound exWide (physValue [("W", -1)] exWide) = -1 ∧
      (pack exCall exRawPacker 0x700 [("W", -1)]).1 = Except.ok [0, 0, 0, 0, 0, 0, 0, 0] ∧
      read_field [0, 0, 0, 0, 0, 0, 0, 0] exWide = 0 ∧
      ((-1 : Int) % 2 ^ exWide.size).toNat = 2 ^ 64 - 1) ∧
    (mapFind exRawPacker.message_lookup 0x800 = some exWordMsg ∧
      exWordMsg.sigs.Pairwise (fun a b => disjointSigs a b = true) ∧
      (∀ s ∈ exWordMsg.sigs, insideFrame s exWordMsg.size = true) ∧
      exWord ∈ exWordMsg.sigs ∧ exWord.name ≠ "COUNTER" ∧ exWord.name ≠ "CHECKSUM" ∧
      rawRound exWord (physValue [("WORD", 2 ^ 63 + 2 ^ 11)] exWord) = 2 ^ 63 + 2 ^ 11 ∧
      (pack exCall exRawPacker 0x800 [("WORD", 2 ^ 63 + 2 ^ 11)]).1 = Except.ok [0, 0] ∧
      read_field [0, 0] exWord = 0 ∧
      ((2 ^ 63 + 2 ^ 11 : Int) % 2 ^ exWord.size).toNat = 2048) :=
  ⟨⟨rfl, by decide, by decide, List.mem_cons_self _ _, by decide, by decide,
      by with_unfolding_all decide, by with_unfolding_all rfl, by decide, by decide,
      by norm_num [exTenth, tenth, physValue, valFind, abs_of_pos, abs_of_neg]⟩,
    ⟨rfl, by decide, by decide, List.mem_cons_self _ _, by decide, by decide,
      by with_unfolding_all decide, by with_unfolding_all rfl, by decide, by decide⟩,
    ⟨rfl, by decide, by decide, List.mem_cons_self _ _, by decide, by decide,
      by with_unfolding_all decide, exWord_pack, by decide, by decide⟩⟩

/-- C3 as amended, round trip through `pack`: for a message of the table whose signals
occupy pairwise disjoint bit positions, every signal of width at most 64 that lies inside
the frame and is not named `CHECKSUM` (a signal named `COUNTER` included), whose quotient
`(v - offset) / factor`, computed in double arithmetic with `v` the supplied value or `0`,
is a finite double `q` with `r = round(q)` an `int64_t`, and `0 ≤ r` when the width is 64,
reads back from the returned frame as `r mod 2^size`.  Hence, when `0 ≤ r < 2^size`, the
field is `r`, and decoding it with the inverse transform gives `r * factor + offset`, within
`|factor| * (1/2 + e)` of `v`, where `e = |q - (v - offset) / factor|` is the rounding error
of the double operations; within `|factor| / 2` when they are exact. -/
theorem pack_round_trip (call : Nat → Nat → Signal → List Nat → Nat) (p : CANPacker)
    (address : Nat) (values : List (String × ℚ)) (msg : Msg) (sig : Signal) (q : ℚ)
    (hmsg : mapFind p.message_lookup address = some msg)
    (hdisj : msg.sigs.Pairwise (fun a b => disjointSigs a b = true))
    (hin : insideFrame sig msg.size = true) (h64 : sig.size ≤ 64)
    (hs : sig ∈ msg.sigs) (hk : sig.name ≠ "CHECKSUM")
    (hq : rawQuot sig (physValue values sig) = Dbl.fin q)
    (hlo : -(2 ^ 63 : Int) ≤ cround q) (hhi : cround q < 2 ^ 63)
    (hneg : sig.size = 64 → 0 ≤ cround q) :
    ∃ frame, (pack call p address values).1 = Except.ok frame ∧
      read_field frame sig = (cround q % 2 ^ sig.size).toNat ∧
      (0 ≤ cround q → cround q < 2 ^ sig.size →
        (read_field frame sig : ℚ) = (cround q : ℚ) ∧
        |((read_field frame sig : ℚ) * sig.factor + sig.offset) - physValue values sig|
          ≤ |sig.factor| * (1 / 2 + |q - (physValue values sig - sig.offset) / sig.factor|) ∧
        (q = (physValue values sig - sig.offset) / sig.factor →
          |((read_field frame sig : ℚ) * sig.factor + sig.offset) - physValue values sig|
            ≤ |sig.factor| / 2)) := by
  have hr : read_field (pack_checksum call address (pack_signals p msg address values)) sig =
      (cround q % 2 ^ sig.size).toNat := by
    rw [pack_read_field call p address values msg sig
      (fun s hs' hne => pairwise_disjoint_of_ne _ hdisj _ _ hs' hs hne) hin hs (Or.inl hk),
      pack_ival_emod sig _ q hq hlo hhi h64 hneg]
  refine ⟨_, by rw [pack_ok call p address values msg hmsg], hr, ?_⟩
  intro h0 h1
  have hf := rawQuot_factor_ne_zero sig _ q hq
  have e : (read_field (pack_checksum call address (pack_signals p msg address values)) sig : ℚ) =
      (cround q : ℚ) := by
    rw [hr, Int.emod_eq_of_lt h0 h1]
    have := Int.toNat_of_nonneg h0
    exact_mod_cast this
  refine ⟨e, ?_, ?_⟩
  · rw [e]
    exact decode_error_le_of _ q _ _ _ hf rfl
  · intro hx
    rw [e]
    have := decode_error_le_of (cround q) q (physValue values sig) sig.factor sig.offset hf rfl
    rw [← hx, sub_self, abs_zero, add_zero] at this
    linarith

theorem pack_round_trip_witness :
    mapFind exPacker.message_lookup 0x300 = some exChecksumMsg ∧
    exChecksumMsg.sigs.Pairwise (fun a b => disjointSigs a b = true) ∧
    insideFrame exSpeed exChecksumMsg.size = true ∧ exSpeed.size ≤ 64 ∧
    exSpeed ∈ exChecksumMsg.sigs ∧ exSpeed.name ≠ "CHECKSUM" ∧
    rawQuot exSpeed (physValue [("SPEED", 10)] exSpeed) = Dbl.fin 20 ∧
    -(2 ^ 63 : Int) ≤ cround 20 ∧ cround 20 < 2 ^ 63 ∧ (exSpeed.size = 64 → 0 ≤ cround 20) ∧
    ∃ frame, (pack exCall exPacker 0x300 [("SPEED", 10)]).1 = Except.ok frame ∧
      read_field frame exSpeed = 20 ∧
      |((read_field frame exSpeed : ℚ) * exSpeed.factor + exSpeed.offset)
          - physValue [("SPEED", 10)] exSpeed| ≤ |exSpeed.factor| / 2 := by
  have hc := cround_twenty
  refine ⟨rfl, by decide, by decide, by decide, List.mem_cons_self _ _, by decide,
    exSpeed_rawQuot, by rw [hc]; decide, by rw [hc]; decide, fun _ => by rw [hc]; decide, ?_⟩
  obtain ⟨frame, h1, h2, h3⟩ :=
    pack_round_trip exCall exPacker 0x300 [("SPEED", 10)] exChecksumMsg exSpeed 20 rfl (by decide)
      (by decide) (by decide) (List.mem_cons_self _ _) (by decide) exSpeed_rawQuot
      (by rw [hc]; decide) (by rw [hc]; decide) (fun _ => by rw [hc]; decide)
  rw [hc] at h2 h3
  refine ⟨frame, h1, by rw [h2]; decide, ?_⟩
  exact (h3 (by decide) (by decide)).2.2 (by with_unfolding_all decide)

/-- C4, checksum injection: for a message of the table whose only signal named `CHECKSUM`
is `cs`, with a checksum routine `f` attached and its bit positions inside the frame, and for
every values map, the `CHECKSUM` field of the returned frame reads `c mod 2^size`, where `c` is
the `unsigned int` returned by the routine on the address, `cs` and the frame as it stands
after the signal loop and the counter block. -/
theorem pack_checksum_injection (call : Nat → Nat → Signal → List Nat → Nat) (p : CANPacker)
    (address : Nat) (values : List (String × ℚ)) (msg : Msg) (cs : Signal) (f : Nat)
    (hmsg : mapFind p.message_lookup address = some msg)
    (hcs : cs ∈ msg.sigs) (hname : cs.name = "CHECKSUM")
    (huniq : ∀ s ∈ msg.sigs, s.name = "CHECKSUM" → s = cs)
    (hf : cs.calc_checksum = some f) (hin : insideFrame cs msg.size = true) :
    ∃ frame, (pack call p address values).1 = Except.ok frame ∧
      read_field frame cs =
        (call f address cs (pack_counter address (pack_signals p msg address values)).ret % 2 ^ 32)
          % 2 ^ cs.size := by
  refine ⟨_, by rw [pack_ok call p address values msg hmsg], ?_⟩
  rw [pack_counter_pack_signals]
  apply pack_checksum_field
  · exact pack_signals_checksum_unique p msg address values cs hcs hname huniq
  · exact hf
  · rw [pack_signals_length]; exact hin
theorem exChecksum_unique : ∀ s ∈ exChecksumMsg.sigs, s.name = "CHECKSUM" → s = exChecksum := by
  intro s hs hn
  simp only [exChecksumMsg, List.mem_cons, List.mem_singleton, List.not_mem_nil, or_false] at hs
  rcases hs with rfl | rfl
  · exact absurd hn (by decide)
  · rfl

theorem pack_checksum_injection_witness :
    mapFind exPacker.message_lookup 0x300 = some exChecksumMsg ∧
    exChecksum ∈ exChecksumMsg.sigs ∧ exChecksum.name = "CHECKSUM" ∧
    exChecksum.calc_checksum = some 0 ∧ insideFrame exChecksum exChecksumMsg.size = true ∧
    ∃ frame, (pack exCall exPacker 0x300 [("SPEED", 10), ("CHECKSUM", 3)]).1 = Except.ok frame ∧
      read_field frame exChecksum =
        (exCall 0 0x300 exChecksum (pack_counter 0x300
          (pack_signals exPacker exChecksumMsg 0x300 [("SPEED", 10), ("CHECKSUM", 3)])).ret % 2 ^ 32)
          % 2 ^ exChecksum.size :=
  ⟨rfl, List.mem_cons_of_mem _ (List.mem_cons_self _ _), rfl, rfl, by decide,
    pack_checksum_injection exCall exPacker 0x300 [("SPEED", 10), ("CHECKSUM", 3)] exChecksumMsg
      exChecksum 0 rfl (List.mem_cons_of_mem _ (List.mem_cons_self _ _)) rfl exChecksum_unique rfl
      (by decide)⟩

/-- C5, evaluation at the failing input: on a freshly constructed packer, `pack(0x100, {})`
for the message with the 8-bit `COUNTER` signal returns the frame `[0]` and leaves the packer
as it was, so the second call returns `[0]` again and its `COUNTER` field reads 0, not 1. -/
theorem pack_counter_not_advanced :
    pack exCall exPacker 0x100 [] = (Except.ok [0], exPacker) ∧
    (pack exCall (pack exCall exPacker 0x100 []).2 0x100 []).1 = Except.ok [0] ∧
    read_field [0] exCounter = 0 :=
  ⟨by with_unfolding_all rfl, by with_unfolding_all rfl, by decide⟩

/-- C6, evaluation at the failing input: after `pack(0x100, {COUNTER: 5})`, which returns `[5]`
and stores 5, the call `pack(0x100, {})` returns `[0]`: its `COUNTER` field reads 0, not 6,
and the stored counter is still 5. -/
theorem pack_counter_override_lost :
    pack exCall exPacker 0x100 [("COUNTER", 5)] =
      (Except.ok [5], { exPacker with counters := [(0x100, 5)] }) ∧
    pack exCall (pack exCall exPacker 0x100 [("COUNTER", 5)]).2 0x100 [] =
      (Except.ok [0], { exPacker with counters := [(0x100, 5)] }) ∧
    read_field [0] exCounter = 0 :=
  ⟨by with_unfolding_all rfl, by with_unfolding_all rfl, by decide⟩

/-- C7, unknown message: for an address that is not a key of the message table, `pack` fails
with the exception of the table lookup, returns no frame, and leaves the packer, its counter
state included, as it was. -/
theorem pack_unknown_message (call : Nat → Nat → Signal → List Nat → Nat) (p : CANPacker)
    (address : Nat) (values : List (String × ℚ))
    (h : mapFind p.message_lookup address = none) :
    pack call p address values = (Except.error PackError.out_of_range, p) := by
  unfold pack
  rw [h]

theorem pack_unknown_message_witness :
    mapFind exPacker.message_lookup 0xFFFF = none ∧
    pack exCall exPacker 0xFFFF [] = (Except.error PackError.out_of_range, exPacker) :=
  ⟨rfl, pack_unknown_message exCall exPacker 0xFFFF [] rfl⟩

/-- C8, counterexample: `0xFFFF` is not a key of the example table, yet `lookup_message(0xFFFF)`
does not fail, it returns the value-initialised message, and the table is changed: afterwards
`0xFFFF` is bound in it. -/
theorem lookup_message_unknown_counterexample :
    mapFind exPacker.message_lookup 0xFFFF = none ∧
    (lookup_message exPacker 0xFFFF).1 = Except.ok Msg.empty ∧
    mapFind (lookup_message exPacker 0xFFFF).2.message_lookup 0xFFFF = some Msg.empty ∧
    (lookup_message exPacker 0xFFFF).2.message_lookup ≠ exPacker.message_lookup := by
  refine ⟨rfl, rfl, rfl, ?_⟩
  intro h
  have h2 := congrArg List.length h
  revert h2
  decide

theorem lookup_message_miss_eq (p : CANPacker) (address : Nat)
    (h : mapFind p.message_lookup address = none) :
    lookup_message p address =
      (Except.ok Msg.empty, { p with message_lookup := mapSet p.message_lookup address Msg.empty }) := by
  unfold lookup_message
  rw [h]

/-- C8 as amended: for an address that is not a key of the message table, `lookup_message`
does not fail; it returns the value-initialised message, binds the address to it in the
table, and leaves every other binding of the table and the counters unchanged. -/
theorem lookup_message_unknown_inserts (p : CANPacker) (address : Nat)
    (h : mapFind p.message_lookup address = none) :
    (lookup_message p address).1 = Except.ok Msg.empty ∧
    mapFind (lookup_message p address).2.message_lookup address = some Msg.empty ∧
    (∀ a, a ≠ address →
      mapFind (lookup_message p address).2.message_lookup a = mapFind p.message_lookup a) ∧
    (lookup_message p address).2.counters = p.counters := by
  rw [lookup_message_miss_eq p address h]
  refine ⟨rfl, ?_, ?_, rfl⟩
  · simp only [mapFind_mapSet, if_true]
  · intro a ha
    simp only [mapFind_mapSet]
    rw [if_neg (fun e => ha e.symm)]

theorem lookup_message_unknown_inserts_witness :
    mapFind exPacker.message_lookup 0xFFFF = none ∧
    (lookup_message exPacker 0xFFFF).1 = Except.ok Msg.empty ∧
    mapFind (lookup_message exPacker 0xFFFF).2.message_lookup 0xFFFF = some Msg.empty ∧
    (∀ a, a ≠ 0xFFFF →
      mapFind (lookup_message exPacker 0xFFFF).2.message_lookup a =
        mapFind exPacker.message_lookup a) ∧
    (lookup_message exPacker 0xFFFF).2.counters = exPacker.counters :=
  ⟨rfl, lookup_message_unknown_inserts exPacker 0xFFFF rfl⟩

/-- C9, concrete scenario: when the table binds `0x200` to a one-byte message whose only signal
is `SPEED` (lsb 0, size 8, little-endian, factor 0.5, offset 0, no checksum routine),
`pack(0x200, {SPEED: 10.0})` returns exactly `[0x14]` and `pack(0x200, {})` exactly `[0x00]`. -/
theorem pack_speed_scenario (call : Nat → Nat → Signal → List Nat → Nat) (p : CANPacker)
    (msg : Msg) (hmsg : mapFind p.message_lookup 0x200 = some msg) (hsize : msg.size = 1)
    (hsigs : msg.sigs = [exSpeed]) :
    (pack call p 0x200 [("SPEED", 10)]).1 = Except.ok [0x14] ∧
    (pack call p 0x200 []).1 = Except.ok [0x00] := by
  rw [pack_ok call p 0x200 _ msg hmsg, pack_ok call p 0x200 _ msg hmsg]
  unfold pack_signals
  rw [hsize, hsigs]
  exact ⟨by with_unfolding_all rfl, by with_unfolding_all rfl⟩

theorem pack_speed_scenario_witness :
    mapFind exPacker.message_lookup 0x200 = some exSpeedMsg ∧ exSpeedMsg.size = 1 ∧
    exSpeedMsg.sigs = [exSpeed] ∧
    (pack exCall exPacker 0x200 [("SPEED", 10)]).1 = Except.ok [0x14] ∧
    (pack exCall exPacker 0x200 []).1 = Except.ok [0x00] :=
  ⟨rfl, rfl, rfl, pack_speed_scenario exCall exPacker exSpeedMsg rfl rfl rfl⟩

/-- C10, frame length: for every address of the message table and every values map, whatever
the positions and widths of the signals, `pack` returns a frame whose length is the declared
size of the message. -/
theorem pack_frame_length (call : Nat → Nat → Signal → List Nat → Nat) (p : CANPacker)
    (address : Nat) (values : List (String × ℚ)) (msg : Msg)
    (hmsg : mapFind p.message_lookup address = some msg) :
    ∃ frame, (pack call p address values).1 = Except.ok frame ∧ frame.length = msg.size := by
  refine ⟨_, by rw [pack_ok call p address values msg hmsg], ?_⟩
  rw [pack_checksum_length, pack_signals_length]

theorem pack_frame_length_witness :
    mapFind exPacker.message_lookup 0x300 = some exChecksumMsg ∧
    ∃ frame, (pack exCall exPacker 0x300 [("SPEED", 10)]).1 = Except.ok frame ∧
      frame.length = exChecksumMsg.size :=
  ⟨rfl, pack_frame_length exCall exPacker 0x300 [("SPEED", 10)] exChecksumMsg rfl⟩


theorem pack_signal_counters (address : Nat) (values : List (String × ℚ)) (st : PackState)
    (sig : Signal) :
    (pack_signal address values st sig).counters = st.counters ∨
    (sig.name = "COUNTER" ∧ ∃ v, valFind values "COUNTER" = some v ∧
      (pack_signal address values st sig).counters = mapSet st.counters address (toU32 v)) := by
  unfold pack_signal
  simp only []
  split
  · exact Or.inl rfl
  · split
    · rename_i h
      obtain ⟨hn, hv⟩ := h
      rw [hn] at hv ⊢
      obtain ⟨v, hv'⟩ := Option.isSome_iff_exists.1 hv
      refine Or.inr ⟨rfl, v, hv', ?_⟩
      simp [hv']
    · exact Or.inl rfl

theorem foldl_pack_signal_counters_none (address : Nat) (values : List (String × ℚ))
    (hv : valFind values "COUNTER" = none) :
    ∀ (l : List Signal) (st : PackState),
      (l.foldl (pack_signal address values) st).counters = st.counters := by
  intro l
  induction l with
  | nil => intro st; rfl
  | cons s l ih =>
    intro st
    rw [List.foldl_cons, ih]
    rcases pack_signal_counters address values st s with h | ⟨_, v, h, _⟩
    · exact h
    · rw [hv] at h; cases h

theorem foldl_pack_signal_counters_other (address : Nat) (values : List (String × ℚ))
    (a : Nat) (ha : a ≠ address) :
    ∀ (l : List Signal) (st : PackState),
      mapFind (l.foldl (pack_signal address values) st).counters a = mapFind st.counters a := by
  intro l
  induction l with
  | nil => intro st; rfl
  | cons s l ih =>
    intro st
    rw [List.foldl_cons, ih]
    rcases pack_signal_counters address values st s with h | ⟨_, v, _, h⟩
    · rw [h]
    · rw [h, mapFind_mapSet, if_neg (fun e => ha e.symm)]

theorem foldl_pack_signal_counters_find (address : Nat) (values : List (String × ℚ)) :
    ∀ (l : List Signal) (st : PackState),
      mapFind (l.foldl (pack_signal address values) st).counters address =
        mapFind st.counters address ∨
      ∃ v, valFind values "COUNTER" = some v ∧
        mapFind (l.foldl (pack_signal address values) st).counters address = some (toU32 v) := by
  intro l
  induction l with
  | nil => intro st; exact Or.inl rfl
  | cons s l ih =>
    intro st
    rw [List.foldl_cons]
    rcases ih (pack_signal address values st s) with h1 | h1
    · rcases pack_signal_counters address values st s with h | ⟨_, v, hv, h⟩
      · rw [h] at h1; exact Or.inl h1
      · refine Or.inr ⟨v, hv, ?_⟩
        rw [h1, h, mapFind_mapSet, if_pos rfl]
    · exact Or.inr h1

theorem pack_miss_eq (call : Nat → Nat → Signal → List Nat → Nat) (p : CANPacker)
    (address : Nat) (values : List (String × ℚ))
    (h : mapFind p.message_lookup address = none) :
    pack call p address values = (Except.error PackError.out_of_range, p) := by
  unfold pack
  rw [h]

theorem pack_state_of_no_counter (call : Nat → Nat → Signal → List Nat → Nat) (p : CANPacker)
    (address : Nat) (values : List (String × ℚ)) (hv : valFind values "COUNTER" = none) :
    (pack call p address values).2 = p := by
  cases hm : mapFind p.message_lookup address with
  | none => rw [pack_miss_eq call p address values hm]
  | some msg =>
    rw [pack_ok call p address values msg hm]
    unfold pack_signals
    simp only [foldl_pack_signal_counters_none address values hv]

theorem counterInRange_new (msgs : List Msg) : counterInRange (CANPacker.new msgs) := by
  intro address msg s c _ _ _ hc
  simp [CANPacker.new, mapFind] at hc

theorem counterInRange_pack (call : Nat → Nat → Signal → List Nat → Nat) (p : CANPacker)
    (address : Nat) (values : List (String × ℚ)) (hfit : counterFits p address values)
    (h : counterInRange p) : counterInRange (pack call p address values).2 := by
  cases hm : mapFind p.message_lookup address with
  | none => rw [pack_miss_eq call p address values hm]; exact h
  | some msg =>
    rw [pack_ok call p address values msg hm]
    intro a msg' s c hm' hs hn hc
    simp only at hm' hc
    unfold pack_signals at hc
    by_cases ha : a = address
    · subst ha
      rcases foldl_pack_signal_counters_find a values msg.sigs _ with h1 | ⟨v, hv, h1⟩
      · rw [h1] at hc
        exact h a msg' s c hm' hs hn hc
      · rw [h1] at hc
        cases hc
        exact hfit msg' s v hm' hs hn hv
    · rw [foldl_pack_signal_counters_other address values a ha] at hc
      exact h a msg' s c hm' hs hn hc

theorem lookup_message_hit_eq (p : CANPacker) (address : Nat) (msg : Msg)
    (h : mapFind p.message_lookup address = some msg) :
    lookup_message p address = (Except.ok msg, p) := by
  unfold lookup_message
  rw [h]

theorem counterInRange_lookup (p : CANPacker) (address : Nat) (h : counterInRange p) :
    counterInRange (lookup_message p address).2 := by
  cases hm : mapFind p.message_lookup address with
  | some msg => rw [lookup_message_hit_eq p address msg hm]; exact h
  | none =>
    rw [lookup_message_miss_eq p address hm]
    intro a msg' s c hm' hs hn hc
    simp only [mapFind_mapSet] at hm' hc
    by_cases ha : address = a
    · rw [if_pos ha] at hm'
      cases hm'
      simp [Msg.empty] at hs
    · rw [if_neg ha] at hm'
      exact h a msg' s c hm' hs hn hc

theorem exPacker_counterFits : counterFits exPacker 0x100 [("COUNTER", 5)] := by
  intro msg s v hm hs hn hv
  have e1 : msg = exCounterMsg := by
    have : mapFind exPacker.message_lookup 0x100 = some exCounterMsg := rfl
    rw [this] at hm
    exact (Option.some.inj hm).symm
  subst e1
  have e2 : s = exCounter := by simpa [exCounterMsg] using hs
  subst e2
  have e3 : v = 5 := by
    have : valFind [("COUNTER", (5 : ℚ))] "COUNTER" = some 5 := rfl
    rw [this] at hv
    exact (Option.some.inj hv).symm
  subst e3
  with_unfolding_all decide

/-- C11, counterexample: after `pack(0x100, {COUNTER: 300})` on the freshly constructed example
packer, the counter stored for `0x100`, whose message has the 8-bit `COUNTER` signal, is 300,
outside `[0, 2^8)`. -/
theorem counter_range_counterexample :
    ReachableBy exCall [exSpeedMsg, exCounterMsg, exChecksumMsg] (fun _ _ _ => True)
      (pack exCall exPacker 0x100 [("COUNTER", 300)]).2 ∧
    mapFind (pack exCall exPacker 0x100 [("COUNTER", 300)]).2.message_lookup 0x100
      = some exCounterMsg ∧
    exCounter ∈ exCounterMsg.sigs ∧ exCounter.name = "COUNTER" ∧ exCounter.size = 8 ∧
    mapFind (pack exCall exPacker 0x100 [("COUNTER", 300)]).2.counters 0x100 = some 300 ∧
    ¬ (300 < 2 ^ 8) :=
  ⟨ReachableBy.pack _ _ _ ReachableBy.init trivial, by with_unfolding_all rfl,
    List.mem_cons_self _ _, rfl, rfl, by with_unfolding_all rfl, by decide⟩

/-- C11 as amended: in every state reachable from a freshly constructed packer by `pack` and
`lookup_message` calls in which every supplied `COUNTER` value fits, converted to `uint32_t`,
the width of the `COUNTER` signals of the addressed message, the counter stored for each
address whose message has a `COUNTER` signal of width `w` lies in `[0, 2^w)`. -/
theorem counter_range_invariant (call : Nat → Nat → Signal → List Nat → Nat) (msgs : List Msg)
    (p : CANPacker) (h : ReachableBy call msgs counterFits p) : counterInRange p := by
  induction h with
  | init => exact counterInRange_new msgs
  | pack p address values _ hfit ih => exact counterInRange_pack call p address values hfit ih
  | lookup p address _ ih => exact counterInRange_lookup p address ih

theorem counter_range_invariant_witness :
    ReachableBy exCall [exSpeedMsg, exCounterMsg, exChecksumMsg] counterFits
      (pack exCall exPacker 0x100 [("COUNTER", 5)]).2 ∧
    mapFind (pack exCall exPacker 0x100 [("COUNTER", 5)]).2.counters 0x100 = some 5 ∧
    counterInRange (pack exCall exPacker 0x100 [("COUNTER", 5)]).2 :=
  ⟨ReachableBy.pack _ _ _ ReachableBy.init exPacker_counterFits, by with_unfolding_all rfl,
    counter_range_invariant exCall [exSpeedMsg, exCounterMsg, exChecksumMsg] _
      (ReachableBy.pack _ _ _ ReachableBy.init exPacker_counterFits)⟩

/-- C16, a `pack` call without an explicit counter never touches the counter state: for every
packer state, every address (in the message table or not) and every values map without the key
`COUNTER`, the packer after `pack`, its counter state included, is the packer before it. -/
theorem pack_without_counter_keeps_state (call : Nat → Nat → Signal → List Nat → Nat)
    (p : CANPacker) (address : Nat) (values : List (String × ℚ))
    (hv : valFind values "COUNTER" = none) :
    (pack call p address values).2 = p ∧
    (pack call p address values).2.counters = p.counters := by
  rw [pack_state_of_no_counter call p address values hv]
  exact ⟨rfl, rfl⟩

theorem pack_without_counter_keeps_state_witness :
    valFind [("SPEED", (10 : ℚ))] "COUNTER" = none ∧
    (pack exCall { exPacker with counters := [(0x100, 5)] } 0x100 [("SPEED", 10)]).2 =
      { exPacker with counters := [(0x100, 5)] } ∧
    (pack exCall { exPacker with counters := [(0x100, 5)] } 0x100 [("SPEED", 10)]).2.counters =
      [(0x100, 5)] :=
  ⟨rfl, pack_without_counter_keeps_state exCall { exPacker with counters := [(0x100, 5)] } 0x100
    [("SPEED", 10)] rfl⟩

theorem isBytes_replicate (n : Nat) : IsBytes (List.replicate n 0) := by
  intro x hx
  rw [List.eq_of_mem_replicate hx]
  norm_num

theorem pack_signal_isBytes (address : Nat) (values : List (String × ℚ)) (st : PackState)
    (sig : Signal) (h : IsBytes st.ret) : IsBytes (pack_signal address values st sig).ret := by
  rw [pack_signal_ret]
  split
  · exact set_value_isBytes _ _ _ h
  · exact h

theorem foldl_pack_signal_isBytes (address : Nat) (values : List (String × ℚ)) :
    ∀ (l : List Signal) (st : PackState), IsBytes st.ret →
      IsBytes (l.foldl (pack_signal address values) st).ret := by
  intro l
  induction l with
  | nil => intro st h; exact h
  | cons s l ih => intro st h; rw [List.foldl_cons]; exact ih _ (pack_signal_isBytes _ _ _ _ h)

theorem pack_signals_isBytes (p : CANPacker) (msg : Msg) (address : Nat)
    (values : List (String × ℚ)) : IsBytes (pack_signals p msg address values).ret := by
  unfold pack_signals
  exact foldl_pack_signal_isBytes _ _ _ _ (isBytes_replicate _)

theorem pack_checksum_isBytes (call : Nat → Nat → Signal → List Nat → Nat) (address : Nat)
    (st : PackState) (h : IsBytes st.ret) : IsBytes (pack_checksum call address st) := by
  unfold pack_checksum
  split
  · split
    · exact set_value_isBytes _ _ _ h
    · exact h
  · exact h

theorem pack_signal_getBit (address : Nat) (values : List (String × ℚ)) (st : PackState)
    (sig : Signal) (j : Int) (c : Nat) (hc : c < 8) (h : (j, c) ∉ sigBits sig) :
    getBit (pack_signal address values st sig).ret j c = getBit st.ret j c := by
  rw [pack_signal_ret]
  split
  · exact getBit_set_value_of_not_mem _ _ _ _ _ hc h
  · rfl

theorem foldl_pack_signal_getBit (address : Nat) (values : List (String × ℚ)) (j : Int) (c : Nat)
    (hc : c < 8) :
    ∀ (l : List Signal) (st : PackState), (∀ s ∈ l, (j, c) ∉ sigBits s) →
      getBit (l.foldl (pack_signal address values) st).ret j c = getBit st.ret j c := by
  intro l
  induction l with
  | nil => intro st _; rfl
  | cons s l ih =>
    intro st h
    rw [List.foldl_cons, ih _ (fun x hx => h x (List.mem_cons_of_mem _ hx)),
      pack_signal_getBit _ _ _ _ _ _ hc (h s (List.mem_cons_self _ _))]

theorem pack_signals_getBit (p : CANPacker) (msg : Msg) (address : Nat)
    (values : List (String × ℚ)) (j : Int) (c : Nat) (hc : c < 8)
    (h : ∀ s ∈ msg.sigs, (j, c) ∉ sigBits s) :
    getBit (pack_signals p msg address values).ret j c = false := by
  unfold pack_signals
  rw [foldl_pack_signal_getBit _ _ _ _ hc _ _ h]
  exact getBit_replicate _ _ _

theorem pack_checksum_getBit (call : Nat → Nat → Signal → List Nat → Nat) (address : Nat)
    (st : PackState) (j : Int) (c : Nat) (hc : c < 8)
    (h : ∀ cs, st.checksum_sig = some cs → (j, c) ∉ sigBits cs) :
    getBit (pack_checksum call address st) j c = getBit st.ret j c := by
  unfold pack_checksum
  split
  · rename_i cs hcs
    split
    · exact getBit_set_value_of_not_mem _ _ _ _ _ hc (h cs hcs)
    · rfl
  · rfl

/-- C13, counterexample.  The message `0x300` has the 8-bit `CHECKSUM` signal in byte 1,
inside the frame and disjoint from `SPEED`; with `CHECKSUM = -2` supplied its raw integer is
`-2`, but the field of the returned frame `[20, 18]` reads 18, the checksum, not
`2^8 - 2 = 254`.  The 8-bit signal `TENTH` (factor the double `0.1`, offset 0) is the only
signal of its message; for the value `-0.25` the nearest integer of the exact quotient is
`-2`, but the double division gives `-2.5`, and the field of the returned frame `[253]`
reads 253, not 254. -/
theorem pack_negative_raw_counterexample :
    (mapFind exPacker.message_lookup 0x300 = some exChecksumMsg ∧
      exChecksumMsg.sigs.Pairwise (fun a b => disjointSigs a b = true) ∧
      exChecksum ∈ exChecksumMsg.sigs ∧ insideFrame exChecksum exChecksumMsg.size = true ∧
      exChecksum.size = 8 ∧
      rawRound exChecksum (physValue [("SPEED", 10), ("CHECKSUM", -2)] exChecksum) = -2 ∧
      (pack exCall exPacker 0x300 [("SPEED", 10), ("CHECKSUM", -2)]).1 = Except.ok [20, 18] ∧
      read_field [20, 18] exChecksum = 18) ∧
    (mapFind exRawPacker.message_lookup 0x600 = some exTenthMsg ∧
      exTenthMsg.sigs.Pairwise (fun a b => disjointSigs a b = true) ∧
      exTenth ∈ exTenthMsg.sigs ∧ insideFrame exTenth exTenthMsg.size = true ∧
      exTenth.size = 8 ∧ exTenth.name ≠ "CHECKSUM" ∧
      rawRound exTenth (physValue [("TENTH", -1 / 4)] exTenth) = -2 ∧
      (pack exCall exRawPacker 0x600 [("TENTH", -1 / 4)]).1 = Except.ok [253] ∧
      read_field [253] exTenth = 253) :=
  ⟨⟨rfl, by decide, List.mem_cons_of_mem _ (List.mem_cons_self _ _), by decide, rfl,
      by with_unfolding_all decide, by with_unfolding_all rfl, by decide⟩,
    ⟨rfl, by decide, List.mem_cons_self _ _, by decide, rfl, by decide,
      by with_unfolding_all decide, by with_unfolding_all rfl, by decide⟩⟩

theorem exHigh_rawQuot :
    rawQuot exHigh (physValue [("HIGH", -3)] exHigh) = Dbl.fin (-6) := by
  with_unfolding_all rfl

theorem cround_neg_six : cround (-6) = -6 := by
  with_unfolding_all decide

theorem exOverlapMsg_others (s : Signal) (hs : s ∈ exOverlapMsg.sigs) (hne : s ≠ exHigh) :
    disjointSigs s exHigh = true := by
  simp only [exOverlapMsg, List.mem_cons, List.mem_singleton, List.not_mem_nil, or_false] at hs
  rcases hs with h | h | h
  · rw [h]; decide
  · rw [h]; decide
  · exact absurd h hne

/-- C13 as amended: for a signal of width `w ≤ 63` whose bit positions lie inside the frame and
do not overlap another signal of the message, and which is not a `CHECKSUM` signal with a
checksum routine attached, every value whose quotient `(v - offset) / factor`, computed in
double arithmetic, is a finite double `q` with `r = round(q)` satisfying `-2^w ≤ r < 0` reads
back from the frame returned by `pack` as `2^w + r`. -/
theorem pack_negative_raw (call : Nat → Nat → Signal → List Nat → Nat) (p : CANPacker)
    (address : Nat) (values : List (String × ℚ)) (msg : Msg) (sig : Signal) (q : ℚ)
    (hmsg : mapFind p.message_lookup address = some msg)
    (hoth : ∀ s ∈ msg.sigs, s ≠ sig → disjointSigs s sig = true)
    (hin : insideFrame sig msg.size = true) (hw : sig.size ≤ 63)
    (hs : sig ∈ msg.sigs) (hk : sig.name ≠ "CHECKSUM" ∨ sig.calc_checksum = none)
    (hq : rawQuot sig (physValue values sig) = Dbl.fin q)
    (hlo : -(2 ^ sig.size : Int) ≤ cround q) (hneg : cround q < 0) :
    ∃ frame, (pack call p address values).1 = Except.ok frame ∧
      (read_field frame sig : Int) = 2 ^ sig.size + cround q := by
  refine ⟨_, by rw [pack_ok call p address values msg hmsg], ?_⟩
  have hp : (2 : Int) ^ sig.size ≤ 2 ^ 63 := pow_le_pow_right₀ (by norm_num) hw
  rw [pack_read_field call p address values msg sig hoth hin hs hk,
    pack_ival_emod sig _ q hq (by omega) (by omega) (by omega) (fun h => by omega)]
  generalize cround q = r at hlo hneg
  have hpos : (0 : Int) < 2 ^ sig.size := by positivity
  rw [Int.toNat_of_nonneg (Int.emod_nonneg _ (ne_of_gt hpos))]
  have e : r % 2 ^ sig.size = (r + 2 ^ sig.size) % 2 ^ sig.size := by
    rw [Int.add_emod_self]
  rw [e, Int.emod_eq_of_lt (by omega) (by omega)]
  ring

theorem pack_negative_raw_witness :
    mapFind (CANPacker.new [exOverlapMsg]).message_lookup 0x900 = some exOverlapMsg ∧
    disjointSigs exSpeed exTenth = false ∧
    (∀ s ∈ exOverlapMsg.sigs, s ≠ exHigh → disjointSigs s exHigh = true) ∧
    insideFrame exHigh exOverlapMsg.size = true ∧ exHigh.size ≤ 63 ∧
    exHigh ∈ exOverlapMsg.sigs ∧ (exHigh.name ≠ "CHECKSUM" ∨ exHigh.calc_checksum = none) ∧
    rawQuot exHigh (physValue [("HIGH", -3)] exHigh) = Dbl.fin (-6) ∧
    -(2 ^ exHigh.size : Int) ≤ cround (-6) ∧ cround (-6) < 0 ∧
    ∃ frame, (pack exCall (CANPacker.new [exOverlapMsg]) 0x900 [("HIGH", -3)]).1 =
        Except.ok frame ∧
      (read_field frame exHigh : Int) = 2 ^ exHigh.size + cround (-6) :=
  ⟨rfl, by decide, exOverlapMsg_others, by decide, by decide,
    List.mem_cons_of_mem _ (List.mem_cons_of_mem _ (List.mem_cons_self _ _)),
    Or.inl (by decide), exHigh_rawQuot, by rw [cround_neg_six]; decide,
    by rw [cround_neg_six]; decide,
    pack_negative_raw exCall (CANPacker.new [exOverlapMsg]) 0x900 [("HIGH", -3)] exOverlapMsg
      exHigh (-6) rfl exOverlapMsg_others (by decide) (by decide)
      (List.mem_cons_of_mem _ (List.mem_cons_of_mem _ (List.mem_cons_self _ _)))
      (Or.inl (by decide)) exHigh_rawQuot (by rw [cround_neg_six]; decide)
      (by rw [cround_neg_six]; decide)⟩

/-- C17, bits no signal owns stay zero: for every address of the message table and every
values map, the frame returned by `pack` is a byte sequence in which every bit that is not a
bit position of any signal of the message is 0. -/
theorem pack_unowned_bits_zero (call : Nat → Nat → Signal → List Nat → Nat) (p : CANPacker)
    (address : Nat) (values : List (String × ℚ)) (msg : Msg)
    (hmsg : mapFind p.message_lookup address = some msg) :
    ∃ frame, (pack call p address values).1 = Except.ok frame ∧ IsBytes frame ∧
      ∀ (j : Int) (c : Nat), c < 8 → (∀ s ∈ msg.sigs, (j, c) ∉ sigBits s) →
        getBit frame j c = false := by
  refine ⟨_, by rw [pack_ok call p address values msg hmsg], ?_, ?_⟩
  · exact pack_checksum_isBytes _ _ _ (pack_signals_isBytes _ _ _ _)
  · intro j c hc h
    rw [pack_checksum_getBit _ _ _ _ _ hc, pack_signals_getBit _ _ _ _ _ _ hc h]
    intro cs hcs
    exact h cs (pack_signals_checksum_sig _ _ _ _ _ hcs).1

theorem testBit_eq_false_of_lt_256 (x c : Nat) (hx : x < 256) (hc : 8 ≤ c) :
    x.testBit c = false := by
  apply Nat.testBit_lt_two_pow
  calc x < 2 ^ 8 := by norm_num; exact hx
    _ ≤ 2 ^ c := Nat.pow_le_pow_right (by norm_num) hc

theorem getD_lt_256 (l : List Nat) (h : IsBytes l) (j : Nat) : l.getD j 0 < 256 := by
  rw [List.getD_eq_getElem?_getD]
  by_cases hj : j < l.length
  · rw [List.getElem?_eq_getElem hj]
    exact h _ (List.getElem_mem _)
  · rw [List.getElem?_eq_none (Nat.le_of_not_lt hj)]
    norm_num

/-- Two byte sequences of the same length with the same bits are equal. -/
theorem eq_of_testBit_eq (l1 l2 : List Nat) (hl : l1.length = l2.length) (h1 : IsBytes l1)
    (h2 : IsBytes l2)
    (h : ∀ j c, c < 8 → (l1.getD j 0).testBit c = (l2.getD j 0).testBit c) : l1 = l2 := by
  apply List.ext_getElem hl
  intro j hj1 hj2
  have e1 : l1[j] = l1.getD j 0 := by
    rw [List.getD_eq_getElem?_getD, List.getElem?_eq_getElem hj1]; rfl
  have e2 : l2[j] = l2.getD j 0 := by
    rw [List.getD_eq_getElem?_getD, List.getElem?_eq_getElem hj2]; rfl
  rw [e1, e2]
  apply Nat.eq_of_testBit_eq
  intro c
  by_cases hc : c < 8
  · exact h j c hc
  · rw [testBit_eq_false_of_lt_256 _ c (getD_lt_256 l1 h1 j) (by omega),
      testBit_eq_false_of_lt_256 _ c (getD_lt_256 l2 h2 j) (by omega)]

theorem ibit_zero (k : Nat) : ibit 0 k = false := by
  unfold ibit
  simp

theorem getBit_natCast (msg : List Nat) (j c : Nat) (hj : j < msg.length) :
    getBit msg (j : Int) c = (msg.getD j 0).testBit c := by
  unfold getBit
  rw [if_pos ⟨by omega, by omega⟩, Int.toNat_ofNat]

theorem written_lt (sig : Signal) (n j c : Nat) (h : written sig n j c) : j < n := h.2.1

/-- Writing 0 into a field whose bits are all 0 leaves the frame as it is. -/
theorem set_value_zero_eq (msg : List Nat) (sig : Signal) (hb : IsBytes msg)
    (hz : ∀ k, k < sig.size → getBit msg (sigPos sig k).1 (sigPos sig k).2 = false) :
    set_value msg sig 0 = msg := by
  apply eq_of_testBit_eq _ _ (set_value_length _ _ _) (set_value_isBytes _ _ _ hb) hb
  intro j c hc
  rw [set_value_testBit _ _ _ _ _ hc]
  split
  · rename_i hw
    rw [ibit_zero]
    obtain ⟨k, hk, hp⟩ := (mem_sigBits sig _).1 (mem_sigBits_of_written sig _ j c hc hw)
    have := hz k hk
    rw [hp] at this
    rw [← getBit_natCast msg j c (written_lt _ _ _ _ hw), this]
  · rfl

theorem pack_signal_always_eq (address : Nat) (values : List (String × ℚ)) (st : PackState)
    (sig : Signal) (hb : IsBytes st.ret)
    (hz : ∀ k, k < sig.size → getBit st.ret (sigPos sig k).1 (sigPos sig k).2 = false) :
    pack_signal_always address values st sig = pack_signal address values st sig := by
  unfold pack_signal_always pack_signal
  simp only []
  by_cases h0 : pack_ival sig ((valFind values sig.name).getD 0) = 0
  · rw [h0, set_value_zero_eq _ _ hb hz]
    simp
  · simp [h0]

theorem foldl_pack_signal_always_eq (address : Nat) (values : List (String × ℚ)) (n : Nat)
    (cnt : List (Nat × Nat)) :
    ∀ (l : List Signal), l.Pairwise (fun a b => disjointSigs a b = true) →
      l.foldl (pack_signal_always address values)
        { ret := List.replicate n 0, counter_set := false, counter_sig := none,
          checksum_sig := none, counters := cnt } =
      l.foldl (pack_signal address values)
        { ret := List.replicate n 0, counter_set := false, counter_sig := none,
          checksum_sig := none, counters := cnt } := by
  intro l
  induction l using List.reverseRecOn with
  | nil => intro _; rfl
  | append_singleton l s ih =>
    intro hd
    rw [List.pairwise_append] at hd
    rw [List.foldl_append, List.foldl_append, ih hd.1]
    simp only [List.foldl_cons, List.foldl_nil]
    apply pack_signal_always_eq
    · exact foldl_pack_signal_isBytes _ _ _ _ (isBytes_replicate _)
    · intro k hk
      rw [foldl_pack_signal_getBit _ _ _ _ (sigPos_snd_lt s k)]
      · exact getBit_replicate _ _ _
      · intro x hx hmem
        have hdx := hd.2.2 x hx s (List.mem_singleton_self _)
        exact (disjointSigs_iff x s).1 hdx _ hmem ((mem_sigBits s _).2 ⟨k, hk, rfl⟩)

theorem pack_always_eq (call : Nat → Nat → Signal → List Nat → Nat) (p : CANPacker)
    (address : Nat) (values : List (String × ℚ)) (msg : Msg)
    (hmsg : mapFind p.message_lookup address = some msg)
    (hdisj : msg.sigs.Pairwise (fun a b => disjointSigs a b = true)) :
    pack_always call p address values = pack call p address values := by
  unfold pack_always pack
  rw [hmsg]
  simp only [pack_signals, foldl_pack_signal_always_eq address values msg.size p.counters
    msg.sigs hdisj]

/-- C14, skipping zero writes is only an optimisation: for a message of the table whose signals
occupy pairwise disjoint bit positions and every values map, `pack` returns the same frame and
leaves the same packer state as `pack_always`, the variant that calls `set_value` for every
signal. -/
theorem pack_skip_zero_equiv (call : Nat → Nat → Signal → List Nat → Nat) (p : CANPacker)
    (address : Nat) (values : List (String × ℚ)) (msg : Msg)
    (hmsg : mapFind p.message_lookup address = some msg)
    (hdisj : msg.sigs.Pairwise (fun a b => disjointSigs a b = true)) :
    (pack call p address values).1 = (pack_always call p address values).1 ∧
    (pack call p address values).2 = (pack_always call p address values).2 := by
  rw [pack_always_eq call p address values msg hmsg hdisj]
  exact ⟨rfl, rfl⟩

theorem pack_skip_zero_equiv_witness :
    mapFind exPacker.message_lookup 0x300 = some exChecksumMsg ∧
    exChecksumMsg.sigs.Pairwise (fun a b => disjointSigs a b = true) ∧
    (pack exCall exPacker 0x300 [("CHECKSUM", 3)]).1 =
      (pack_always exCall exPacker 0x300 [("CHECKSUM", 3)]).1 ∧
    (pack exCall exPacker 0x300 [("CHECKSUM", 3)]).2 =
      (pack_always exCall exPacker 0x300 [("CHECKSUM", 3)]).2 :=
  ⟨rfl, by decide,
    pack_skip_zero_equiv exCall exPacker 0x300 [("CHECKSUM", 3)] exChecksumMsg rfl (by decide)⟩

theorem exMid_unowned : ∀ s ∈ exMidMsg.sigs, ((0 : Int), 3) ∉ sigBits s := by
  intro s hs
  have e : s = exMid := by simpa [exMidMsg] using hs
  subst e
  decide

theorem pack_unowned_bits_zero_witness :
    mapFind (CANPacker.new [exMidMsg]).message_lookup 0x500 = some exMidMsg ∧
    (∀ s ∈ exMidMsg.sigs, ((0 : Int), 3) ∉ sigBits s) ∧
    ∃ frame, (pack exCall (CANPacker.new [exMidMsg]) 0x500 [("MID", 4095)]).1 = Except.ok frame ∧
      getBit frame 0 3 = false :=
  ⟨rfl, exMid_unowned,
    (pack_unowned_bits_zero exCall (CANPacker.new [exMidMsg]) 0x500 [("MID", 4095)] exMidMsg
      rfl).imp (fun _ h => ⟨h.1, h.2.2 0 3 (by decide) exMid_unowned⟩)⟩

theorem set_value_getD_testBit (msg : List Nat) (sig : Signal) (ival : Int) (j c : Nat)
    (hc : c < 8) (hw : ¬ written sig msg.length j c) :
    ((set_value msg sig ival).getD j 0).testBit c = (msg.getD j 0).testBit c := by
  rw [set_value_testBit _ _ _ _ _ hc, if_neg hw]

theorem not_written_of_disjoint (a b : Signal) (n j c : Nat) (hc : c < 8)
    (hd : disjointSigs a b = true) (ha : written a n j c) : ¬ written b n j c := by
  intro hb
  exact (disjointSigs_iff a b).1 hd _ (mem_sigBits_of_written a n j c hc ha)
    (mem_sigBits_of_written b n j c hc hb)

theorem set_value_comm (buf : List Nat) (a b : Signal) (x y : Int) (hb : IsBytes buf)
    (hd : disjointSigs a b = true) :
    set_value (set_value buf a x) b y = set_value (set_value buf b y) a x := by
  apply eq_of_testBit_eq
  · simp only [set_value_length]
  · exact set_value_isBytes _ _ _ (set_value_isBytes _ _ _ hb)
  · exact set_value_isBytes _ _ _ (set_value_isBytes _ _ _ hb)
  · intro j c hc
    rw [set_value_testBit _ _ _ _ _ hc, set_value_testBit _ _ _ _ _ hc,
      set_value_testBit _ _ _ _ _ hc, set_value_testBit _ _ _ _ _ hc]
    simp only [set_value_length]
    by_cases ha : written a buf.length j c
    · have hnb := not_written_of_disjoint a b _ j c hc hd ha
      rw [if_neg hnb, if_pos ha, if_pos ha]
    · rw [if_neg ha, if_neg ha]

theorem ibit_eq_of_emod_eq (x y : Int) (w k : Nat) (hk : k < w)
    (h : x % 2 ^ w = y % 2 ^ w) : ibit x k = ibit y k := by
  have hx := testBit_toNat_emod x w k
  have hy := testBit_toNat_emod y w k
  rw [h] at hx
  rw [hx] at hy
  simpa [hk] using hy

theorem bitIndex_lt (sig : Signal) (n j c : Nat) (h : written sig n j c) :
    bitIndex sig j c < sig.size := by
  unfold written at h
  unfold bitIndex
  omega

theorem foldl_pack_signal_ret (address : Nat) (values : List (String × ℚ)) :
    ∀ (l : List Signal) (st : PackState),
      (l.foldl (pack_signal address values) st).ret = l.foldl (retStep values) st.ret := by
  intro l
  induction l with
  | nil => intro st; rfl
  | cons s l ih =>
    intro st
    rw [List.foldl_cons, List.foldl_cons, ih, pack_signal_ret]
    rfl

theorem retStep_isBytes (values : List (String × ℚ)) (ret : List Nat) (sig : Signal)
    (h : IsBytes ret) : IsBytes (retStep values ret sig) := by
  unfold retStep
  split
  · exact set_value_isBytes _ _ _ h
  · exact h

theorem retStep_comm (values : List (String × ℚ)) (ret : List Nat) (a b : Signal)
    (hb : IsBytes ret) (hd : disjointSigs a b = true) :
    retStep values (retStep values ret a) b = retStep values (retStep values ret b) a := by
  unfold retStep
  by_cases ha : pack_ival a ((valFind values a.name).getD 0) = 0 <;>
    by_cases hb' : pack_ival b ((valFind values b.name).getD 0) = 0
  · simp [ha, hb']
  · simp [ha, hb']
  · simp [ha, hb']
  · simp only [ne_eq, ha, hb', not_false_eq_true, if_true]
    exact set_value_comm _ _ _ _ _ hb hd

theorem foldl_retStep_perm (values : List (String × ℚ)) (l1 l2 : List Signal)
    (hp : l1.Perm l2) :
    ∀ (ret : List Nat), IsBytes ret → l1.Pairwise (fun a b => disjointSigs a b = true) →
      l1.foldl (retStep values) ret = l2.foldl (retStep values) ret := by
  induction hp with
  | nil => intro ret _ _; rfl
  | cons x _ ih =>
    intro ret hb hd
    rw [List.foldl_cons, List.foldl_cons]
    exact ih _ (retStep_isBytes _ _ _ hb) (List.Pairwise.of_cons hd)
  | swap x y l =>
    intro ret hb hd
    simp only [List.foldl_cons]
    rw [retStep_comm values ret y x hb ((List.pairwise_cons.1 hd).1 x (List.mem_cons_self _ _))]
  | trans hp1 _ ih1 ih2 =>
    intro ret hb hd
    rw [ih1 ret hb hd]
    exact ih2 ret hb
      ((List.Perm.pairwise_iff (fun h => disjointSigs_symm _ _ h) hp1).1 hd)

theorem foldl_pack_signal_checksum_none (address : Nat) (values : List (String × ℚ))
    (l : List Signal) (st : PackState) (h0 : st.checksum_sig = none)
    (h : ¬ ∃ s ∈ l, s.name = "CHECKSUM") :
    (l.foldl (pack_signal address values) st).checksum_sig = none := by
  cases hc : (l.foldl (pack_signal address values) st).checksum_sig with
  | none => rfl
  | some cs =>
    rcases foldl_pack_signal_checksum address values l st cs hc with h1 | h1
    · exact absurd ⟨cs, h1.1, h1.2⟩ h
    · rw [h0] at h1; cases h1

theorem foldl_pack_signal_checksum_perm (address : Nat) (values : List (String × ℚ))
    (l1 l2 : List Signal) (hp : l1.Perm l2) (st1 st2 : PackState)
    (h1 : st1.checksum_sig = none) (h2 : st2.checksum_sig = none)
    (hu : ∀ s ∈ l1, ∀ t ∈ l1, s.name = "CHECKSUM" → t.name = "CHECKSUM" → s = t) :
    (l1.foldl (pack_signal address values) st1).checksum_sig =
      (l2.foldl (pack_signal address values) st2).checksum_sig := by
  by_cases h : ∃ s ∈ l1, s.name = "CHECKSUM"
  · obtain ⟨c1, e1, m1, n1⟩ := foldl_pack_signal_checksum_some address values l1 st1 h
    have h' : ∃ s ∈ l2, s.name = "CHECKSUM" := by
      obtain ⟨s, hs, hn⟩ := h
      exact ⟨s, hp.mem_iff.1 hs, hn⟩
    obtain ⟨c2, e2, m2, n2⟩ := foldl_pack_signal_checksum_some address values l2 st2 h'
    rw [e1, e2, hu c1 m1 c2 (hp.mem_iff.2 m2) n1 n2]
  · have h' : ¬ ∃ s ∈ l2, s.name = "CHECKSUM" := by
      rintro ⟨s, hs, hn⟩
      exact h ⟨s, hp.mem_iff.2 hs, hn⟩
    rw [foldl_pack_signal_checksum_none _ _ _ _ h1 h, foldl_pack_signal_checksum_none _ _ _ _ h2 h']

theorem pack_checksum_congr (call : Nat → Nat → Signal → List Nat → Nat) (address : Nat)
    (st1 st2 : PackState) (hr : st1.ret = st2.ret) (hc : st1.checksum_sig = st2.checksum_sig) :
    pack_checksum call address st1 = pack_checksum call address st2 := by
  unfold pack_checksum
  rw [hr, hc]

theorem pack_frame_perm (call : Nat → Nat → Signal → List Nat → Nat) (p1 p2 : CANPacker)
    (address : Nat) (values : List (String × ℚ)) (m1 m2 : Msg)
    (h1 : mapFind p1.message_lookup address = some m1)
    (h2 : mapFind p2.message_lookup address = some m2)
    (hsize : m1.size = m2.size) (hp : m1.sigs.Perm m2.sigs)
    (hd : m1.sigs.Pairwise (fun a b => disjointSigs a b = true))
    (hu : ∀ s ∈ m1.sigs, ∀ t ∈ m1.sigs, s.name = "CHECKSUM" → t.name = "CHECKSUM" → s = t) :
    (pack call p1 address values).1 = (pack call p2 address values).1 := by
  rw [pack_ok call p1 address values m1 h1, pack_ok call p2 address values m2 h2]
  simp only
  congr 1
  apply pack_checksum_congr
  · unfold pack_signals
    rw [foldl_pack_signal_ret, foldl_pack_signal_ret, hsize]
    exact foldl_retStep_perm values _ _ hp _ (isBytes_replicate _) hd
  · unfold pack_signals
    exact foldl_pack_signal_checksum_perm address values m1.sigs m2.sigs hp _ _ rfl rfl hu

theorem write_chunk_testBit_high (b : Nat) (v : Int) (size shift c : Nat) (hc : 8 ≤ c) :
    (write_chunk b v size shift).testBit c = false :=
  testBit_eq_false_of_lt_256 _ c (write_chunk_lt b v size shift) hc

theorem set_value_loop_tail_high (sig : Signal) :
    ∀ (fuel : Nat) (msg : List Nat) (i : Int) (bits : Nat) (ival : Int),
      bits ≤ fuel → ((sig.lsb / 8 : Nat) : Int) ≠ i → 0 < off sig ((sig.lsb / 8 : Nat) : Int) i →
      ∀ (j c : Nat), 8 ≤ c →
        ((set_value_loop sig fuel msg i bits ival).getD j 0).testBit c =
          if 0 ≤ i ∧ i < (msg.length : Int) ∧ j < msg.length ∧ 0 ≤ off sig i j ∧
             8 * off sig i j < bits
          then false else (msg.getD j 0).testBit c := by
  intro fuel
  induction fuel with
  | zero =>
    intro msg i bits ival hb hne hoff j c hc
    have : ¬ (0 ≤ i ∧ i < (msg.length : Int) ∧ j < msg.length ∧ 0 ≤ off sig i j ∧
             8 * off sig i j < bits) := by omega
    rw [if_neg this]; rfl
  | succ n ih =>
    intro msg i bits ival hb hne hoff j c hc
    unfold set_value_loop
    by_cases hg : 0 ≤ i ∧ i < (msg.length : Int) ∧ 0 < bits
    · rw [if_pos hg]
      simp only [if_neg hne, Nat.sub_zero]
      have hsz : min bits 8 ≤ bits ∧ min bits 8 ≤ 8 ∧ (min bits 8 = bits ∨ min bits 8 = 8) := by
        rw [Nat.min_def]; split <;> omega
      generalize min bits 8 = sz at hsz ⊢
      have hoff' : 0 < off sig ((sig.lsb / 8 : Nat) : Int)
          (if sig.is_little_endian then i + 1 else i - 1) := by
        unfold off at hoff ⊢
        split <;> simp_all <;> omega
      have hne' : ((sig.lsb / 8 : Nat) : Int) ≠ (if sig.is_little_endian then i + 1 else i - 1) := by
        unfold off at hoff
        split <;> simp_all <;> omega
      rw [ih _ _ _ _ (by omega) hne' hoff' j c hc, List.length_set, getD_set_eq]
      have hstep : off sig (if sig.is_little_endian then i + 1 else i - 1) (j : Int)
          = off sig i j - 1 := by
        unfold off
        split <;> simp_all <;> omega
      have hj0 : off sig i j = 0 ↔ i.toNat = j := by
        unfold off
        split <;> omega
      have hin : 0 ≤ off sig i j → (j < msg.length) → 0 < off sig i j →
          (0 ≤ (if sig.is_little_endian then i + 1 else i - 1) ∧
           (if sig.is_little_endian then i + 1 else i - 1) < (msg.length : Int)) := by
        unfold off
        split <;> omega
      rw [hstep]
      generalize (if sig.is_little_endian then i + 1 else i - 1) = i' at hin ⊢
      generalize off sig i j = d at hj0 hin ⊢
      by_cases hji : i.toNat = j
      · have h0 : d = 0 := hj0.2 hji
        subst h0
        have e1 : ¬ (0 ≤ i' ∧ i' < (msg.length : Int) ∧ j < msg.length ∧ (0 : Int) ≤ 0 - 1 ∧
            8 * (0 - 1) < ((bits - sz : Nat) : Int)) := by omega
        have e2 : i.toNat = j ∧ i.toNat < msg.length := ⟨hji, by omega⟩
        have e4 : 0 ≤ i ∧ i < (msg.length : Int) ∧ j < msg.length ∧ (0 : Int) ≤ 0 ∧
            8 * 0 < (bits : Int) := by omega
        rw [if_neg e1, if_pos e2, if_pos e4, write_chunk_testBit_high _ _ _ _ _ hc]
      · have h0 : d ≠ 0 := fun h => hji (hj0.1 h)
        have e2 : ¬ (i.toNat = j ∧ i.toNat < msg.length) := by omega
        rw [if_neg e2]
        by_cases hc2 : 0 ≤ i ∧ i < (msg.length : Int) ∧ j < msg.length ∧ 0 ≤ d ∧ 8 * d < bits
        · have hi' := hin hc2.2.2.2.1 hc2.2.2.1 (by omega)
          have e1 : 0 ≤ i' ∧ i' < (msg.length : Int) ∧ j < msg.length ∧ 0 ≤ d - 1 ∧
            8 * (d - 1) < ((bits - sz : Nat) : Int) := by omega
          rw [if_pos hc2, if_pos e1]
        · have e1 : ¬ (0 ≤ i' ∧ i' < (msg.length : Int) ∧ j < msg.length ∧ 0 ≤ d - 1 ∧
            8 * (d - 1) < ((bits - sz : Nat) : Int)) := by omega
          rw [if_neg hc2, if_neg e1]
    · rw [if_neg hg, if_neg (by omega)]

theorem set_value_loop_first_high (sig : Signal) (fuel bits : Nat) (msg : List Nat) (ival : Int)
    (hfb : bits ≤ fuel) (j c : Nat) (hc : 8 ≤ c) :
    ((set_value_loop sig fuel msg ((sig.lsb / 8 : Nat) : Int) bits ival).getD j 0).testBit c =
      if sig.lsb / 8 < msg.length ∧ j < msg.length ∧ 0 ≤ off sig ((sig.lsb / 8 : Nat) : Int) j ∧
          0 < bits ∧
          8 * off sig ((sig.lsb / 8 : Nat) : Int) j < ((sig.lsb % 8 + bits : Nat) : Int)
      then false else (msg.getD j 0).testBit c := by
  rcases fuel with _ | n
  · rw [if_neg (by omega)]; rfl
  · unfold set_value_loop
    by_cases hg : (0 : Int) ≤ ((sig.lsb / 8 : Nat) : Int) ∧
        ((sig.lsb / 8 : Nat) : Int) < (msg.length : Int) ∧ 0 < bits
    · rw [if_pos hg]
      simp only [if_true]
      have hs0 : sig.lsb % 8 < 8 := Nat.mod_lt _ (by norm_num)
      have hsz' : min bits (8 - sig.lsb % 8) ≤ bits ∧ min bits (8 - sig.lsb % 8) ≤ 8 - sig.lsb % 8 ∧
          (min bits (8 - sig.lsb % 8) = bits ∨ min bits (8 - sig.lsb % 8) = 8 - sig.lsb % 8) := by
        rw [Nat.min_def]; split <;> omega
      generalize min bits (8 - sig.lsb % 8) = sz at hsz' ⊢
      have hoff' : off sig ((sig.lsb / 8 : Nat) : Int)
          (if sig.is_little_endian then ((sig.lsb / 8 : Nat) : Int) + 1
            else ((sig.lsb / 8 : Nat) : Int) - 1) = 1 := by
        unfold off
        split <;> simp_all
      have hne' : ((sig.lsb / 8 : Nat) : Int) ≠
          (if sig.is_little_endian then ((sig.lsb / 8 : Nat) : Int) + 1
            else ((sig.lsb / 8 : Nat) : Int) - 1) := by
        split <;> omega
      rw [set_value_loop_tail_high sig _ _ _ _ _ (by omega) hne' (by omega) j c hc,
        List.length_set, getD_set_eq]
      have hstep : off sig (if sig.is_little_endian then ((sig.lsb / 8 : Nat) : Int) + 1
            else ((sig.lsb / 8 : Nat) : Int) - 1) (j : Int)
          = off sig ((sig.lsb / 8 : Nat) : Int) j - 1 := by
        unfold off
        split <;> simp_all <;> omega
      have hj0 : off sig ((sig.lsb / 8 : Nat) : Int) j = 0 ↔
          ((sig.lsb / 8 : Nat) : Int).toNat = j := by
        unfold off
        split <;> omega
      have hin : 0 ≤ off sig ((sig.lsb / 8 : Nat) : Int) j → (j < msg.length) →
          0 < off sig ((sig.lsb / 8 : Nat) : Int) j →
          (0 ≤ (if sig.is_little_endian then ((sig.lsb / 8 : Nat) : Int) + 1
            else ((sig.lsb / 8 : Nat) : Int) - 1) ∧
           (if sig.is_little_endian then ((sig.lsb / 8 : Nat) : Int) + 1
            else ((sig.lsb / 8 : Nat) : Int) - 1) < (msg.length : Int)) := by
        unfold off
        split <;> omega
      rw [hstep]
      generalize (if sig.is_little_endian then ((sig.lsb / 8 : Nat) : Int) + 1
        else ((sig.lsb / 8 : Nat) : Int) - 1) = i' at hin ⊢
      generalize off sig ((sig.lsb / 8 : Nat) : Int) j = d at hj0 hin ⊢
      generalize hs : sig.lsb % 8 = s0 at hs0 hsz' ⊢
      generalize hL : sig.lsb / 8 = L at hg hj0 ⊢
      by_cases hji : (L : Int).toNat = j
      · have h0 : d = 0 := hj0.2 hji
        subst h0
        have e1 : ¬ (0 ≤ i' ∧ i' < (msg.length : Int) ∧ j < msg.length ∧ (0 : Int) ≤ 0 - 1 ∧
            8 * (0 - 1) < ((bits - sz : Nat) : Int)) := by omega
        have e2 : (L : Int).toNat = j ∧ (L : Int).toNat < msg.length := ⟨hji, by omega⟩
        have e4 : L < msg.length ∧ j < msg.length ∧ (0 : Int) ≤ 0 ∧ 0 < bits ∧
            8 * 0 < ((s0 + bits : Nat) : Int) := by omega
        rw [if_neg e1, if_pos e2, if_pos e4, write_chunk_testBit_high _ _ _ _ _ hc]
      · have h0 : d ≠ 0 := fun h => hji (hj0.1 h)
        have e2 : ¬ ((L : Int).toNat = j ∧ (L : Int).toNat < msg.length) := by omega
        rw [if_neg e2]
        by_cases hc2 : L < msg.length ∧ j < msg.length ∧ (0 : Int) ≤ d ∧ 0 < bits ∧
            8 * d < ((s0 + bits : Nat) : Int)
        · have hi' := hin hc2.2.2.1 hc2.2.1 (by omega)
          have e1 : 0 ≤ i' ∧ i' < (msg.length : Int) ∧ j < msg.length ∧ 0 ≤ d - 1 ∧
            8 * (d - 1) < ((bits - sz : Nat) : Int) := by omega
          rw [if_pos hc2, if_pos e1]
        · have e1 : ¬ (0 ≤ i' ∧ i' < (msg.length : Int) ∧ j < msg.length ∧ 0 ≤ d - 1 ∧
            8 * (d - 1) < ((bits - sz : Nat) : Int)) := by omega
          rw [if_neg hc2, if_neg e1]
    · rw [if_neg hg, if_neg (by omega)]

/-- The bits above bit 7 of an entry of the result of `set_value`: cleared in the bytes the
function stores into, unchanged elsewhere. -/
theorem set_value_testBit_high (msg : List Nat) (sig : Signal) (ival : Int) (j c : Nat)
    (hc : 8 ≤ c) :
    ((set_value msg sig ival).getD j 0).testBit c =
      if touched sig msg.length j then false else (msg.getD j 0).testBit c := by
  rw [set_value_eq, set_value_loop_first_high sig _ _ _ _ (le_refl _) j c hc]
  rfl

/-- Two lists of the same length whose entries have the same bits are equal. -/
theorem eq_of_testBit_eq_all (l1 l2 : List Nat) (hl : l1.length = l2.length)
    (h : ∀ j c, (l1.getD j 0).testBit c = (l2.getD j 0).testBit c) : l1 = l2 := by
  apply List.ext_getElem hl
  intro j hj1 hj2
  have e1 : l1[j] = l1.getD j 0 := by
    rw [List.getD_eq_getElem?_getD, List.getElem?_eq_getElem hj1]; rfl
  have e2 : l2[j] = l2.getD j 0 := by
    rw [List.getD_eq_getElem?_getD, List.getElem?_eq_getElem hj2]; rfl
  rw [e1, e2]
  exact Nat.eq_of_testBit_eq (fun c => h j c)

theorem set_value_comm_all (buf : List Nat) (a b : Signal) (x y : Int)
    (hd : disjointSigs a b = true) :
    set_value (set_value buf a x) b y = set_value (set_value buf b y) a x := by
  apply eq_of_testBit_eq_all
  · simp only [set_value_length]
  · intro j c
    by_cases hc : c < 8
    · rw [set_value_testBit _ _ _ _ _ hc, set_value_testBit _ _ _ _ _ hc,
        set_value_testBit _ _ _ _ _ hc, set_value_testBit _ _ _ _ _ hc]
      simp only [set_value_length]
      by_cases ha : written a buf.length j c
      · have hnb := not_written_of_disjoint a b _ j c hc hd ha
        rw [if_neg hnb, if_pos ha, if_pos ha]
      · rw [if_neg ha, if_neg ha]
    · have hc' : 8 ≤ c := by omega
      rw [set_value_testBit_high _ _ _ _ _ hc', set_value_testBit_high _ _ _ _ _ hc',
        set_value_testBit_high _ _ _ _ _ hc', set_value_testBit_high _ _ _ _ _ hc']
      simp only [set_value_length]
      by_cases ha : touched a buf.length j <;> by_cases hb : touched b buf.length j <;>
        simp [ha, hb]

theorem set_value_overwrite_all (buf : List Nat) (sig : Signal) (x y : Int) :
    set_value (set_value buf sig x) sig y = set_value buf sig y := by
  apply eq_of_testBit_eq_all
  · simp only [set_value_length]
  · intro j c
    by_cases hc : c < 8
    · rw [set_value_testBit _ _ _ _ _ hc, set_value_testBit _ _ _ _ _ hc,
        set_value_testBit _ _ _ _ _ hc]
      simp only [set_value_length]
      by_cases hw : written sig buf.length j c
      · rw [if_pos hw, if_pos hw]
      · rw [if_neg hw, if_neg hw, if_neg hw]
    · have hc' : 8 ≤ c := by omega
      rw [set_value_testBit_high _ _ _ _ _ hc', set_value_testBit_high _ _ _ _ _ hc',
        set_value_testBit_high _ _ _ _ _ hc']
      simp only [set_value_length]
      by_cases ha : touched sig buf.length j <;> simp [ha]

theorem set_value_congr_emod_all (buf : List Nat) (sig : Signal) (x y : Int)
    (h : x % 2 ^ sig.size = y % 2 ^ sig.size) : set_value buf sig x = set_value buf sig y := by
  apply eq_of_testBit_eq_all
  · simp only [set_value_length]
  · intro j c
    by_cases hc : c < 8
    · rw [set_value_testBit _ _ _ _ _ hc, set_value_testBit _ _ _ _ _ hc]
      by_cases hw : written sig buf.length j c
      · rw [if_pos hw, if_pos hw]
        exact ibit_eq_of_emod_eq x y sig.size _ (bitIndex_lt sig _ j c hw) h
      · rw [if_neg hw, if_neg hw]
    · have hc' : 8 ≤ c := by omega
      rw [set_value_testBit_high _ _ _ _ _ hc', set_value_testBit_high _ _ _ _ _ hc']

theorem exChecksumMsg_unique : ∀ s ∈ exChecksumMsg.sigs, ∀ t ∈ exChecksumMsg.sigs,
    s.name = "CHECKSUM" → t.name = "CHECKSUM" → s = t := by
  intro s hs t ht hsn htn
  simp only [exChecksumMsg, List.mem_cons, List.mem_singleton, List.not_mem_nil, or_false] at hs ht
  rcases hs with rfl | rfl
  · exact absurd hsn (by decide)
  · rcases ht with rfl | rfl
    · exact absurd htn (by decide)
    · rfl

/-- C18, writes to disjoint signals commute: for every buffer, every two signals with disjoint
bit positions (any widths and byte orders) and every two values, the two orders of the writes
give the same buffer; so the frame returned by `pack` is the same for two messages of the same
size whose pairwise disjoint signals, with at most one named `CHECKSUM`, are declared in
different orders. -/
theorem set_value_disjoint_comm :
    (∀ (buf : List Nat) (a b : Signal) (x y : Int), disjointSigs a b = true →
      set_value (set_value buf a x) b y = set_value (set_value buf b y) a x) ∧
    (∀ (call : Nat → Nat → Signal → List Nat → Nat) (p1 p2 : CANPacker) (address : Nat)
      (values : List (String × ℚ)) (m1 m2 : Msg),
      mapFind p1.message_lookup address = some m1 →
      mapFind p2.message_lookup address = some m2 →
      m1.size = m2.size → m1.sigs.Perm m2.sigs →
      m1.sigs.Pairwise (fun a b => disjointSigs a b = true) →
      (∀ s ∈ m1.sigs, ∀ t ∈ m1.sigs, s.name = "CHECKSUM" → t.name = "CHECKSUM" → s = t) →
      (pack call p1 address values).1 = (pack call p2 address values).1) :=
  ⟨fun buf a b x y hd => set_value_comm_all buf a b x y hd,
    fun call p1 p2 address values m1 m2 h1 h2 hsize hp hd hu =>
      pack_frame_perm call p1 p2 address values m1 m2 h1 h2 hsize hp hd hu⟩

theorem set_value_disjoint_comm_witness :
    disjointSigs exLow exMid = true ∧
    set_value (set_value [255, 255, 255] exLow 5) exMid 0xABC =
      set_value (set_value [255, 255, 255] exMid 0xABC) exLow 5 ∧
    set_value (set_value [255, 255, 255] exLow 5) exMid 0xABC = [0xC5, 0xAB, 255] ∧
    exChecksumMsg.sigs.Perm exSwappedMsg.sigs ∧
    (pack exCall (CANPacker.new [exChecksumMsg]) 0x300 [("SPEED", 10)]).1 =
      (pack exCall (CANPacker.new [exSwappedMsg]) 0x300 [("SPEED", 10)]).1 :=
  ⟨by decide,
    set_value_disjoint_comm.1 [255, 255, 255] exLow exMid 5 0xABC (by decide),
    by decide, List.Perm.swap _ _ _,
    set_value_disjoint_comm.2 exCall (CANPacker.new [exChecksumMsg])
      (CANPacker.new [exSwappedMsg]) 0x300 [("SPEED", 10)] exChecksumMsg exSwappedMsg rfl rfl rfl
      (List.Perm.swap _ _ _) (by decide) exChecksumMsg_unique⟩

/-- C19, the last write to a signal wins: for every buffer, every signal (any width, either
byte order) and every two values, writing `x` then `y` gives what writing `y` alone gives; in
particular `set_value` is idempotent, and two values with the same residue modulo `2^size`
give the same result. -/
theorem set_value_last_write_wins (buf : List Nat) (sig : Signal) (x y : Int) :
    set_value (set_value buf sig x) sig y = set_value buf sig y ∧
    set_value (set_value buf sig x) sig x = set_value buf sig x ∧
    (x % 2 ^ sig.size = y % 2 ^ sig.size → set_value buf sig x = set_value buf sig y) :=
  ⟨set_value_overwrite_all buf sig x y, set_value_overwrite_all buf sig x x,
    fun h => set_value_congr_emod_all buf sig x y h⟩

theorem set_value_last_write_wins_witness :
    set_value (set_value [255, 255, 255] exMid 0xABC) exMid 0x123 =
      set_value [255, 255, 255] exMid 0x123 ∧
    set_value [255, 255, 255] exMid 0x123 = [0x3F, 0x12, 255] ∧
    (0x1123 : Int) % 2 ^ exMid.size = 0x123 % 2 ^ exMid.size ∧
    set_value [255, 255, 255] exMid 0x1123 = set_value [255, 255, 255] exMid 0x123 :=
  ⟨(set_value_last_write_wins [255, 255, 255] exMid 0xABC 0x123).1,
    by decide, by decide,
    (set_value_last_write_wins [255, 255, 255] exMid 0x1123 0x123).2.2 (by decide)⟩

theorem set_value_loop_trace_fst (sig : Signal) :
    ∀ (fuel : Nat) (msg : List Nat) (i : Int) (bits : Nat) (ival : Int),
      (set_value_loop_trace sig fuel msg i bits ival).1 = set_value_loop sig fuel msg i bits ival := by
  intro fuel
  induction fuel with
  | zero => intro msg i bits ival; rfl
  | succ n ih =>
    intro msg i bits ival
    unfold set_value_loop_trace set_value_loop
    split
    · simp only []
      exact ih _ _ _ _
    · rfl

theorem set_value_loop_trace_snd (sig : Signal) :
    ∀ (fuel : Nat) (msg : List Nat) (i : Int) (bits : Nat) (ival : Int),
      ∀ a ∈ (set_value_loop_trace sig fuel msg i bits ival).2, 0 ≤ a ∧ a < (msg.length : Int) := by
  intro fuel
  induction fuel with
  | zero => intro msg i bits ival a ha; simp [set_value_loop_trace] at ha
  | succ n ih =>
    intro msg i bits ival a ha
    unfold set_value_loop_trace at ha
    split at ha
    · rename_i hg
      simp only [List.mem_cons] at ha
      rcases ha with rfl | ha
      · exact ⟨hg.1, hg.2.1⟩
      · have := ih _ _ _ _ a ha
        rwa [List.length_set] at this
    · simp at ha

theorem chunksInside_iff (sig : Signal) (n k : Nat) :
    chunksInside sig n k = true ↔
      sig.lsb / 8 < n ∧ 0 ≤ (sigPos sig k).1 ∧ (sigPos sig k).1 < (n : Int) := by
  unfold chunksInside chunkByte sigPos
  simp only [List.all_eq_true, List.mem_range, Bool.and_eq_true, decide_eq_true_eq]
  generalize (sig.lsb % 8 + k) / 8 = dk
  generalize sig.lsb / 8 = L
  constructor
  · intro h
    have h0 := h 0 (by omega)
    have h1 := h dk (by omega)
    by_cases hle : sig.is_little_endian = true
    · simp only [hle, if_true] at h0 h1 ⊢
      omega
    · have hle' : sig.is_little_endian = false := by simpa using hle
      simp only [hle', Bool.false_eq_true, if_false] at h0 h1 ⊢
      omega
  · intro h d hd
    by_cases hle : sig.is_little_endian = true
    · simp only [hle, if_true] at h ⊢
      omega
    · have hle' : sig.is_little_endian = false := by simpa using hle
      simp only [hle', Bool.false_eq_true, if_false] at h ⊢
      omega

theorem not_written_of_lsb_ge (sig : Signal) (n j c : Nat) (h : n ≤ sig.lsb / 8) :
    ¬ written sig n j c := by
  intro hw
  have := hw.1
  omega

theorem getBit_set_value_cut (msg : List Nat) (sig : Signal) (ival : Int) (k : Nat)
    (hk : k < sig.size) :
    getBit (set_value msg sig ival) (sigPos sig k).1 (sigPos sig k).2 =
      if chunksInside sig msg.length k = true then ibit ival k
      else getBit msg (sigPos sig k).1 (sigPos sig k).2 := by
  by_cases hc : chunksInside sig msg.length k = true
  · rw [if_pos hc]
    obtain ⟨h0, hj⟩ := (chunksInside_iff sig msg.length k).1 hc
    have hw := written_sigPos sig msg.length k hk h0 hj
    unfold getBit
    rw [set_value_length, if_pos hj, set_value_testBit _ _ _ _ _ (sigPos_snd_lt sig k),
      if_pos hw.1, hw.2]
  · rw [if_neg hc]
    unfold getBit
    rw [set_value_length]
    by_cases hj : 0 ≤ (sigPos sig k).1 ∧ (sigPos sig k).1 < (msg.length : Int)
    · rw [if_pos hj, if_pos hj, set_value_testBit _ _ _ _ _ (sigPos_snd_lt sig k)]
      have hL : msg.length ≤ sig.lsb / 8 := by
        by_contra hlt
        exact hc ((chunksInside_iff sig msg.length k).2 ⟨by omega, hj⟩)
      rw [if_neg (not_written_of_lsb_ge sig _ _ _ hL)]
    · rw [if_neg hj, if_neg hj]

theorem set_value_of_lsb_ge (msg : List Nat) (sig : Signal) (ival : Int)
    (h : msg.length ≤ sig.lsb / 8) : set_value msg sig ival = msg := by
  rw [set_value_eq]
  generalize sig.size = fuel
  generalize masked sig ival = v
  cases fuel with
  | zero => rfl
  | succ n =>
    unfold set_value_loop
    rw [if_neg (by omega)]

theorem take_set_of_le (l : List Nat) (k n : Nat) (a : Nat) (h : k ≤ n) :
    (l.set n a).take k = l.take k := by
  rcases Nat.eq_or_lt_of_le h with h1 | h1
  · subst h1
    apply List.ext_getElem?
    intro i
    rw [List.getElem?_take, List.getElem?_take]
    split
    · rw [List.getElem?_set_ne (by omega)]
    · rfl
  · exact List.take_set_of_lt a l h1

/-- A little-endian write that starts at or beyond byte `k` leaves the first `k` bytes as they
are. -/
theorem set_value_loop_take_beyond (sig : Signal) (hle : sig.is_little_endian = true) (k : Nat) :
    ∀ (fuel : Nat) (l : List Nat) (i : Int) (bits : Nat) (ival : Int), (k : Int) ≤ i →
      (set_value_loop sig fuel l i bits ival).take k = l.take k := by
  intro fuel
  induction fuel with
  | zero => intro l i bits ival _; rfl
  | succ n ih =>
    intro l i bits ival hi
    unfold set_value_loop
    split
    · simp only [hle, if_true]
      rw [ih _ _ _ _ (by omega), take_set_of_le _ _ _ _ (by omega)]
    · rfl

/-- A little-endian write on a frame extended by further bytes agrees, on the frame, with the
write on the frame itself. -/
theorem set_value_loop_take_append (sig : Signal) (hle : sig.is_little_endian = true) :
    ∀ (fuel : Nat) (msg ext : List Nat) (i : Int) (bits : Nat) (ival : Int), 0 ≤ i →
      (set_value_loop sig fuel (msg ++ ext) i bits ival).take msg.length =
        set_value_loop sig fuel msg i bits ival := by
  intro fuel
  induction fuel with
  | zero => intro msg ext i bits ival _; exact List.take_left _ _
  | succ n ih =>
    intro msg ext i bits ival hi
    unfold set_value_loop
    by_cases hg : 0 ≤ i ∧ i < (msg.length : Int) ∧ 0 < bits
    · have hg' : 0 ≤ i ∧ i < ((msg ++ ext).length : Int) ∧ 0 < bits := by
        rw [List.length_append]; omega
      rw [if_pos hg, if_pos hg']
      simp only [hle, if_true]
      have hlt : i.toNat < msg.length := by omega
      rw [List.getD_append _ _ _ _ hlt, List.set_append_left _ _ hlt]
      have := ih (msg.set i.toNat (write_chunk (msg.getD i.toNat 0) ival
        (min bits (8 - if ((sig.lsb / 8 : Nat) : Int) = i then sig.lsb % 8 else 0))
        (if ((sig.lsb / 8 : Nat) : Int) = i then sig.lsb % 8 else 0))) ext (i + 1)
        (bits - min bits (8 - if ((sig.lsb / 8 : Nat) : Int) = i then sig.lsb % 8 else 0))
        (ival >>> min bits (8 - if ((sig.lsb / 8 : Nat) : Int) = i then sig.lsb % 8 else 0))
        (by omega)
      rw [List.length_set] at this
      exact this
    · rw [if_neg hg]
      split
      · rename_i hg'
        simp only [hle, if_true]
        rw [set_value_loop_take_beyond sig hle _ _ _ _ _ _ (by omega),
          take_set_of_le _ _ _ _ (by omega)]
        exact List.take_left _ _
      · exact List.take_left _ _

theorem set_value_take_append (msg : List Nat) (sig : Signal) (ival : Int)
    (hle : sig.is_little_endian = true) (ext : List Nat) :
    (set_value (msg ++ ext) sig ival).take msg.length = set_value msg sig ival := by
  rw [set_value_eq, set_value_eq]
  exact set_value_loop_take_append sig hle _ _ _ _ _ _ (by omega)

theorem set_value_trace_bounds (msg : List Nat) (sig : Signal) (ival : Int) :
    ∀ a ∈ set_value_trace msg sig ival, 0 ≤ a ∧ a < (msg.length : Int) :=
  set_value_loop_trace_snd sig _ _ _ _ _

/-- C15, fields that leave the buffer are cut off silently: for every buffer of length `n`,
every signal and every value, `set_value` accesses only byte indices in `[0, n)`, returns a
buffer of length `n`, and stops at the first chunk whose byte index is outside `[0, n)`: bit
`k` of the value is stored at the `k`-th bit position exactly when its chunk and all chunks
before it are inside, every other bit is unchanged.  In particular the buffer is returned
unchanged when `lsb / 8 ≥ n`, and for a little-endian signal the result is the first `n` bytes
of `set_value` on the buffer extended with zero bytes. -/
theorem set_value_cut_off (msg : List Nat) (sig : Signal) (ival : Int) :
    (∀ a ∈ set_value_trace msg sig ival, 0 ≤ a ∧ a < (msg.length : Int)) ∧
    (set_value msg sig ival).length = msg.length ∧
    (∀ k, k < sig.size →
      getBit (set_value msg sig ival) (sigPos sig k).1 (sigPos sig k).2 =
        if chunksInside sig msg.length k = true then ibit ival k
        else getBit msg (sigPos sig k).1 (sigPos sig k).2) ∧
    (∀ (j : Int) (c : Nat), c < 8 → (j, c) ∉ sigBits sig →
      getBit (set_value msg sig ival) j c = getBit msg j c) ∧
    (msg.length ≤ sig.lsb / 8 → set_value msg sig ival = msg) ∧
    (sig.is_little_endian = true → ∀ m : Nat,
      set_value msg sig ival =
        (set_value (msg ++ List.replicate m 0) sig ival).take msg.length) :=
  ⟨set_value_trace_bounds msg sig ival, set_value_length msg sig ival,
    fun k hk => getBit_set_value_cut msg sig ival k hk,
    fun j c hc h => getBit_set_value_of_not_mem msg sig ival j c hc h,
    fun h => set_value_of_lsb_ge msg sig ival h,
    fun hle _ => (set_value_take_append msg sig ival hle _).symm⟩

theorem set_value_cut_off_witness :
    set_value_trace [0, 0] exWide (-2) = [0, 1] ∧
    set_value [0, 0] exWide (-2) = [254, 255] ∧
    chunksInside exWide [0, 0].length 15 = true ∧ chunksInside exWide [0, 0].length 16 = false ∧
    exWide.is_little_endian = true ∧
    set_value [0, 0] exWide (-2) =
      (set_value ([0, 0] ++ List.replicate 6 0) exWide (-2)).take [0, 0].length ∧
    [7].length ≤ exChecksum.lsb / 8 ∧ set_value [7] exChecksum 5 = [7] :=
  ⟨by decide, by decide, by decide, by decide, rfl,
    (set_value_cut_off [0, 0] exWide (-2)).2.2.2.2.2 rfl 6, by decide,
    (set_value_cut_off [7] exChecksum 5).2.2.2.2.1 (by decide)⟩

theorem pack_empty_msg (call : Nat → Nat → Signal → List Nat → Nat) (p : CANPacker)
    (address : Nat) (values : List (String × ℚ))
    (h : mapFind p.message_lookup address = some Msg.empty) :
    pack call p address values = (Except.ok [], p) := by
  rw [pack_ok call p address values Msg.empty h]
  cases p
  rfl

/-- C20, a lookup of an unknown address changes what `pack` does: for an address that is not a
key of the message table, `pack` fails before the lookup; after `lookup_message(address)` the
address is bound to the value-initialised message (empty, size 0, no signals), and a following
`pack(address, values)` does not fail: it returns the empty frame and leaves the packer, its
counter state included, as the lookup left it, with the counters it had before the lookup. -/
theorem lookup_message_then_pack (call : Nat → Nat → Signal → List Nat → Nat) (p : CANPacker)
    (address : Nat) (values : List (String × ℚ))
    (h : mapFind p.message_lookup address = none) :
    pack call p address values = (Except.error PackError.out_of_range, p) ∧
    mapFind (lookup_message p address).2.message_lookup address = some Msg.empty ∧
    pack call (lookup_message p address).2 address values =
      (Except.ok [], (lookup_message p address).2) ∧
    (pack call (lookup_message p address).2 address values).2.counters = p.counters := by
  have hfind : mapFind (lookup_message p address).2.message_lookup address = some Msg.empty := by
    rw [lookup_message_miss_eq p address h]
    simp only [mapFind_mapSet, if_true]
  refine ⟨pack_miss_eq call p address values h, hfind, pack_empty_msg call _ address values hfind, ?_⟩
  rw [pack_empty_msg call _ address values hfind, lookup_message_miss_eq p address h]

theorem lookup_message_then_pack_witness :
    mapFind exPacker.message_lookup 0xFFFF = none ∧
    pack exCall exPacker 0xFFFF [("SPEED", 10)] = (Except.error PackError.out_of_range, exPacker) ∧
    mapFind (lookup_message exPacker 0xFFFF).2.message_lookup 0xFFFF = some Msg.empty ∧
    pack exCall (lookup_message exPacker 0xFFFF).2 0xFFFF [("SPEED", 10)] =
      (Except.ok [], (lookup_message exPacker 0xFFFF).2) ∧
    (pack exCall (lookup_message exPacker 0xFFFF).2 0xFFFF [("SPEED", 10)]).2.counters =
      exPacker.counters :=
  ⟨rfl, lookup_message_then_pack exCall exPacker 0xFFFF [("SPEED", 10)] rfl⟩

end CanPacker
